import Mathlib

/-!
Verification development for `grub-core/osdep/unix/getroot.c`.

A shallow embedding of the device and path resolution code of
`getroot.c`, followed by theorems about it.

Conventions of the embedding:

* a C string is the list of its characters before the terminating NUL
  (`CStr`); a `char *` that may be `NULL` is an `Option CStr`;
* `dev_t` is a natural number;
* a call of `grub_util_error` ends the process: functions that can reach
  it return an `Outcome`, whose `fatal` constructor stands for that exit;
* the operating system (stat, the mount table, the directory tree, the
  output of a child process) is an explicit argument.
-/

set_option maxRecDepth 1000000

namespace Getroot

/-- A C string: the characters before the terminating NUL. -/
abbrev CStr := List Char

/-- The result of a function that may end the process through
`grub_util_error`.  `nofuel` is not a behaviour of the C code: it marks the
exhaustion of the iteration bound of a loop model and is proved unreachable. -/
inductive Outcome (α : Type) where
  | ret (v : α)
  | fatal
  | nofuel
  deriving DecidableEq, Repr

/-! ## libc string helpers -/

/-- Index of the first occurrence of `c` in `s` (`strchr`), `none` for `NULL`. -/
def strchr : CStr → Char → Option Nat
  | [], _ => none
  | x :: xs, c =>
    if x = c then some 0
    else match strchr xs c with
      | some i => some (i + 1)
      | none => none

/-- Index of the last occurrence of `c` in `s` (`strrchr`), `none` for `NULL`. -/
def strrchr : CStr → Char → Option Nat
  | [], _ => none
  | x :: xs, c =>
    match strrchr xs c with
    | some i => some (i + 1)
    | none => if x = c then some 0 else none

/-! ## `strip_extra_slashes` (lines 113-134) -/

/-- The loop of `strip_extra_slashes`, reading the string from `p` on.
`atStart` is `p == dir`.  A slash followed by a slash is deleted (`memmove`)
and the scan stays where it is; a slash followed by the end of the string is
cut off unless it is the first character of `dir`; after any other slash the
scan moves on.  Characters before the next slash are skipped by `strchr`. -/
def strip_extra_slashes_from (atStart : Bool) : CStr → CStr
  | [] => []
  | c :: rest =>
    if c = '/' then
      match rest with
      | [] => if atStart then ['/'] else []
      | d :: rest' =>
        if d = '/' then strip_extra_slashes_from atStart (d :: rest')
        else '/' :: d :: strip_extra_slashes_from false rest'
    else c :: strip_extra_slashes_from false rest

/-- The string left in `dir` by `strip_extra_slashes (dir)`. -/
def strip_extra_slashes (dir : CStr) : CStr :=
  strip_extra_slashes_from true dir

/-! ## `grub_find_zpool_from_dir` (lines 695-753) -/

/-- The function `grub_find_zpool_from_dir`: returns `(poolname, poolfs)`.
`zfs_mntfrom dir` is the mount source of the filesystem holding `dir` when
that filesystem is of type zfs (`f_mntfromname`, `mnt_special`), and `none`
otherwise or when the platform has no such query. -/
def grub_find_zpool_from_dir (zfs_mntfrom : CStr → Option CStr) (dir : CStr) :
    Option CStr × Option CStr :=
  match zfs_mntfrom dir with
  | none => (none, none)
  | some name =>
    match strchr name '/' with
    | some slash => (some (name.take slash), some (name.drop (slash + 1)))
    | none => (some name, some [])

/-! ## `grub_make_system_path_relative_to_its_root` (lines 755-889) -/

/-- What the host reports to `grub_make_system_path_relative_to_its_root`. -/
structure Host where
  /-- Result of `canonicalize_file_name`, `none` for `NULL`. -/
  canonicalize_file_name : CStr → Option CStr
  /-- Field `st_dev` of `stat (path)`, `none` when `stat` fails. -/
  stat : CStr → Option Nat
  /-- Mount source of a zfs filesystem, see `grub_find_zpool_from_dir`. -/
  zfs_mntfrom : CStr → Option CStr
  /-- The string stored in `bind` by
  `grub_find_root_devices_from_mountinfo (dir, &bind)`, `none` for `NULL`. -/
  mountinfo_bind : CStr → Option CStr

/-- The test `bind && bind[0] && bind[1]`: the bind string when it passes. -/
def usable_bind : Option CStr → Option CStr
  | some (b0 :: b1 :: bs) => some (b0 :: b1 :: bs)
  | _ => none

/-- How the `while (1)` loop of lines 790-849 is left. -/
inductive WalkExit where
  /-- The branch `offset == 0` of `st.st_dev != num`: the path is a mount point. -/
  | mountPoint
  /-- A `break`, with the value of `offset` at that moment. -/
  | broke (offset : Nat)
  deriving DecidableEq, Repr

/-- The `while (1)` loop of lines 790-849 started with buffer `buf` and
`offset`.  `fuel` bounds the number of iterations. -/
def walkLoop (stat : CStr → Option Nat) (num : Nat) :
    Nat → CStr → Nat → Outcome WalkExit
  | 0, _, _ => .nofuel
  | fuel + 1, buf, offset =>
    match strrchr buf '/' with
    | none => .fatal
    | some i =>
      -- `if (p != buf) *p = 0; else *++p = 0;`
      let buf' := if i ≠ 0 then buf.take i else buf.take 1
      let p := if i ≠ 0 then i else 1
      match stat buf' with
      | none => .fatal
      | some st_dev =>
        if st_dev ≠ num then
          if offset = 0 then .ret .mountPoint else .ret (.broke offset)
        else if p = 1 then .ret (.broke 0)
        else walkLoop stat num fuel buf' p

/-- Label `parsedir` to the end: trailing slashes are removed from `buf3`
and the pool prefix is put in front. -/
def parsedir (poolfs : Option CStr) (buf3 : CStr) : CStr :=
  let buf3 := buf3.rdropWhile (· = '/')
  match poolfs with
  | some fs => '/' :: fs ++ '/' :: '@' :: buf3
  | none => buf3

/-- The function `grub_make_system_path_relative_to_its_root`. -/
def grub_make_system_path_relative_to_its_root (h : Host) (path : CStr) :
    Outcome CStr :=
  match h.canonicalize_file_name path with
  | none => .fatal
  | some p =>
    let poolfs := (grub_find_zpool_from_dir h.zfs_mntfrom p).2
    let buf := p
    match h.stat buf with
    | none => .fatal
    | some num =>
      let buf2 := buf
      match walkLoop h.stat num (buf.length + 1) buf 0 with
      | .fatal => .fatal
      | .nofuel => .nofuel
      | .ret .mountPoint =>
        match usable_bind (h.mountinfo_bind buf2) with
        | some bind => .ret (parsedir poolfs bind)
        | none =>
          match poolfs with
          | some fs => .ret ('/' :: fs ++ ['/', '@'])
          | none => .ret []
      | .ret (.broke offset) =>
        let buf3 := buf2.drop offset
        let buf2 := buf2.take offset
        let buf3 :=
          match usable_bind (h.mountinfo_bind buf2) with
          | some bind => bind ++ (if buf3.head? = some '/' then [] else ['/']) ++ buf3
          | none => buf3
        .ret (parsedir poolfs buf3)

/-! ## Vocabulary for the statements about the walk -/

/-- The parent directory of a path: the path cut at its last slash, or `/`
when that slash is its first character. -/
def dirname (s : CStr) : CStr :=
  match strrchr s '/' with
  | none => s
  | some 0 => s.take 1
  | some i => s.take i

/-- The prefix of length `j` of the absolute path `p` names `p` itself or
one of its ancestor directories: it is `/`, or all of `p`, or it ends just
before a slash of `p`. -/
def isDirIndex (p : CStr) (j : Nat) : Prop :=
  1 ≤ j ∧ j ≤ p.length ∧ (j = 1 ∨ j = p.length ∨ p[j]? = some '/')

instance (p : CStr) (j : Nat) : Decidable (isDirIndex p j) := by
  unfold isDirIndex; infer_instance

/-- The path `p` and its ancestor directories up to `/`, shortest first. -/
def ancestorsOrSelf (p : CStr) : List CStr :=
  ((List.range (p.length + 1)).filter (fun j => decide (isDirIndex p j))).map p.take

/-- The properties of a canonical absolute path that matter here: it
begins with `/` and, unless it is `/`, does not end with `/`. -/
def Canonical (p : CStr) : Prop :=
  p.head? = some '/' ∧ (p = ['/'] ∨ p.getLast? ≠ some '/')

instance (p : CStr) : Decidable (Canonical p) := by
  unfold Canonical; infer_instance

/-- What the exit of the walk over the prefixes of `p`, entered with the
prefix of length `k`, says about the device identifiers `dev`. -/
def WalkPost (dev : CStr → Nat) (p : CStr) (num k offset : Nat) : WalkExit → Prop
  | .mountPoint => offset = 0 ∧ dev (dirname (p.take k)) ≠ num
  | .broke o =>
    o < p.length ∧ (∀ j, o ≤ j → isDirIndex p j → dev (p.take j) = num) ∧
      (o ≠ 0 → isDirIndex p o ∧ dev (dirname (p.take o)) ≠ num) ∧
      (offset = 0 → dev (dirname (p.take k)) = num)

/-- A host on which `/mnt/data` is a filesystem of its own (device 2) and
everything else is on device 1; no pool, no bind mount. -/
def devMnt (q : CStr) : Nat :=
  if "/mnt/data".toList <+: q then 2 else 1

/-- The host of `devMnt`: paths are canonical already, every `stat` succeeds. -/
def hostMnt : Host where
  canonicalize_file_name := fun p => some p
  stat := fun q => some (devMnt q)
  zfs_mntfrom := fun _ => none
  mountinfo_bind := fun _ => none

/-! ## `grub_find_device` (lines 393-524) -/

/-- The file type bits of `st_mode` that `grub_find_device` tests. -/
inductive FileType where
  | lnk
  | dir
  | blk
  | other
  deriving DecidableEq, Repr

/-- The fields of `struct stat` that `grub_find_device` reads. -/
structure Stat where
  st_mode : FileType
  st_rdev : Nat
  deriving DecidableEq, Repr

/-- A directory entry as the scan sees it. -/
inductive Node where
  /-- Neither a directory nor a symbolic link: a device node (`isBlk`) or another file. -/
  | file (isBlk : Bool) (rdev : Nat)
  /-- A directory: the absolute path `getcwd` reports inside it and its
  entries in `readdir` order; `none` when `opendir` or `chdir` fails. -/
  | dir (cwd : CStr) (ents : Option (List (CStr × Node)))
  /-- A symbolic link and what it resolves to; `none` when `stat` fails on it. -/
  | lnk (target : Option Node)
  /-- An entry on which `lstat` fails. -/
  | unreadable

/-- The result of `lstat` on an entry. -/
def lstat : Node → Option Stat
  | .file isBlk rdev => some ⟨if isBlk then .blk else .other, rdev⟩
  | .dir _ _ => some ⟨.dir, 0⟩
  | .lnk _ => some ⟨.lnk, 0⟩
  | .unreadable => none

/-- The result of `stat` on an entry: symbolic links are followed. -/
def stat : Node → Option Stat
  | .lnk none => none
  | .lnk (some t) => stat t
  | n => lstat n

/-- The test of lines 474-478: the name is `dm-` followed by a digit. -/
def is_dm_shorthand : CStr → Bool
  | 'd' :: 'm' :: '-' :: c :: _ => decide ('0' ≤ c ∧ c ≤ '9')
  | _ => false

mutual
/-- The function `grub_find_device` (Linux: block devices, links followed
under `mapper`).  `node` is what `opendir (dir)` finds under the name `dir`; a
symbolic link is followed by `opendir`.  The result is `none` for `NULL`.
Restoring the saved working directory is taken to succeed; its failure ends
the process through `grub_util_error`. -/
def grub_find_device (dir : Option CStr) (node : Node) (dev : Nat) : Option CStr :=
  match node with
  | .dir cwd (some ents) => readdir_loop (dir.getD "/dev".toList) cwd dev ents
  | .lnk (some t) => grub_find_device dir t dev
  | _ => none
/-- The `readdir` loop of `grub_find_device` over the entries not yet read. -/
def readdir_loop (dir cwd : CStr) (dev : Nat) : List (CStr × Node) → Option CStr
  | [] => none
  | (d_name, ent) :: rest =>
    if d_name.head? = some '.' then readdir_loop dir cwd dev rest
    else
      match lstat ent with
      | none => readdir_loop dir cwd dev rest
      | some st0 =>
        let followed : Option Stat :=
          if st0.st_mode = .lnk then
            if dir = "mapper".toList ∨ dir = "/dev/mapper".toList then stat ent else none
          else some st0
        match followed with
        | none => readdir_loop dir cwd dev rest
        | some st =>
          let sub : Option CStr :=
            if st.st_mode = .dir then grub_find_device (some d_name) ent dev else none
          match sub with
          | some res => some res
          | none =>
            if st.st_mode = .blk ∧ st.st_rdev = dev then
              if is_dm_shorthand d_name then readdir_loop dir cwd dev rest
              else
                let res := strip_extra_slashes (cwd ++ '/' :: d_name)
                if res = "/dev/root".toList then readdir_loop dir cwd dev rest
                else some res
            else readdir_loop dir cwd dev rest
end

/-- A device directory: `dm-0`, `root`, `sda1` and the link
`mapper/myvg-lv1` all have device identifier 7. -/
def devTree : Node :=
  .dir "/dev".toList (some [
    (".udev".toList, .dir "/dev/.udev".toList (some [])),
    ("root".toList, .file true 7),
    ("dm-0".toList, .file true 7),
    ("mapper".toList, .dir "/dev/mapper".toList (some [
        ("control".toList, .file false 3),
        ("myvg-lv1".toList, .lnk (some (.file true 7)))])),
    ("sda1".toList, .file true 7)])


mutual
/-- Every entry of every directory the scan can open below `node`, as
`(cwd, d_name, entry)`. -/
def Node.entries : Node → List (CStr × CStr × Node)
  | .dir cwd (some ents) => entriesIn cwd ents
  | .lnk (some t) => t.entries
  | _ => []
/-- The entries of one directory and of the directories below it. -/
def entriesIn (cwd : CStr) : List (CStr × Node) → List (CStr × CStr × Node)
  | [] => []
  | (d_name, ent) :: rest => (cwd, d_name, ent) :: (ent.entries ++ entriesIn cwd rest)
end

/-- The last component of a path: what follows its last slash. -/
def lastComponent (s : CStr) : CStr := s.rtakeWhile (· ≠ '/')

/-- The path `P` names one of the entries `L`, a block device with
identifier `dev`, under an admissible name. -/
def FoundIn (dev : Nat) (L : List (CStr × CStr × Node)) (P : CStr) : Prop :=
  P ≠ "/dev/root".toList ∧
  ∃ e ∈ L, P = strip_extra_slashes (e.1 ++ '/' :: e.2.1) ∧
    is_dm_shorthand e.2.1 = false ∧ e.2.1.head? ≠ some '.' ∧
    stat e.2.2 = some ⟨.blk, dev⟩

/-! ## `grub_util_find_root_devices_from_poolname` (lines 196-371) -/

/-- The whitespace characters of `isspace` in the C locale, which the
`scanf` family skips. -/
def isspace (c : Char) : Bool :=
  c = ' ' || c = '\t' || c = '\n' || c = Char.ofNat 11 || c = Char.ofNat 12 || c = '\r'

/-- One `%s` conversion of `sscanf` with an optional maximum field width:
leading whitespace is skipped, then the longest run of non-whitespace
characters within the width is the field.  `none` when no character is left:
the conversion fails. -/
def scan_s (width : Option Nat) (input : CStr) : Option (CStr × CStr) :=
  let input := input.dropWhile isspace
  let run := input.takeWhile (fun c => !isspace c)
  let item := match width with
    | some w => run.take w
    | none => run
  if item = [] then none else some (item, input.drop item.length)

/-- The conversions of a format made of `%s` directives, in order, up to the
first that fails. -/
def scan_fields : List (Option Nat) → CStr → List CStr
  | [], _ => []
  | w :: ws, input =>
    match scan_s w input with
    | none => []
    | some (item, rest) => item :: scan_fields ws rest

/-- The fields assigned by
`sscanf (line, " %s %256s %256s %256s %256s %256s", name, state, readlen, writelen, cksum, notes)`;
the value returned by `sscanf` is their number when there is one.  The buffer
`name` is taken to be large enough for the first field: `name_fits` says that
it is, and `zpool_status_parse_bounded` has no result when it is not. -/
def sscanf_fields (line : CStr) : List CStr :=
  scan_fields [none, some 256, some 256, some 256, some 256, some 256] line

/-- The `%u` conversion at the end of the formats of line 332-336, on the
input that is left: 1 when a number is read, 0 on a matching failure, -1
(`EOF`) when the input has ended. -/
def scan_u : CStr → Int
  | [] => -1
  | c :: cs =>
    if c.isDigit then 1
    else if c = '+' ∨ c = '-' then
      match cs with
      | d :: _ => if d.isDigit then 1 else 0
      | [] => 0
    else 0

/-- The value of `sscanf (name, lit "%u", &dummy)` for a literal `lit`
without whitespace or `%`: the literal is matched character by character,
then `%u` is converted.  The end of the input before the first conversion is
an input failure, `EOF`. -/
def sscanf_lit_u : CStr → CStr → Int
  | [], input => scan_u input
  | _ :: _, [] => -1
  | l :: ls, c :: cs => if l = c then sscanf_lit_u ls cs else 0

/-- The test `strncmp (ptr, poolname, strlen (poolname)) == 0
&& grub_isspace (ptr[strlen (poolname)])` of line 322. -/
def pool_name_at (grub_isspace : Char → Bool) (poolname ptr : CStr) : Bool :=
  ptr.take poolname.length = poolname && grub_isspace (ptr.getD poolname.length (Char.ofNat 0))

/-- The `while (1)` loop of lines 320-328 from `ptr` on: how many times
`st++` is executed.  At the end of the line `*ptr` is the terminating NUL, on
which the loop is left. -/
def pool_row_hits (grub_isspace : Char → Bool) (poolname : CStr) : CStr → Nat
  | [] => if pool_name_at grub_isspace poolname [] then 1 else 0
  | c :: rest =>
    (if pool_name_at grub_isspace poolname (c :: rest) then 1 else 0) +
      (if grub_isspace c then pool_row_hits grub_isspace poolname rest else 0)

/-- The body of the `while (1)` loop of lines 298-354 for one line read by
`getline`: the new value of `st` and of the array `devices`. -/
def zpool_status_line (grub_isspace : Char → Bool) (poolname : CStr)
    (acc : Nat × List CStr) (line : CStr) : Nat × List CStr :=
  match sscanf_fields line with
  | name :: state :: readlen :: writelen :: cksum :: _ =>
    match acc.1 with
    | 0 =>
      if name = "NAME".toList ∧ state = "STATE".toList ∧ readlen = "READ".toList
          ∧ writelen = "WRITE".toList ∧ cksum = "CKSUM".toList then
        (acc.1 + 1, acc.2)
      else acc
    | 1 => (acc.1 + pool_row_hits grub_isspace poolname line, acc.2)
    | 2 =>
      if name ≠ "mirror".toList ∧ sscanf_lit_u "mirror-".toList name = 0
          ∧ sscanf_lit_u "raidz".toList name = 0
          ∧ sscanf_lit_u "raidz1".toList name = 0
          ∧ sscanf_lit_u "raidz2".toList name = 0
          ∧ sscanf_lit_u "raidz3".toList name = 0
          ∧ state = "ONLINE".toList then
        (acc.1, acc.2 ++ [if name.head? = some '/' then name else "/dev/".toList ++ name])
      else acc
    | _ => acc
  | _ => acc

/-- The array `devices` after the loop of lines 297-354 has read `lines`. -/
def zpool_status_parse (grub_isspace : Char → Bool) (poolname : CStr)
    (lines : List CStr) : List CStr :=
  (lines.foldl (zpool_status_line grub_isspace poolname) (0, [])).2

/-- The function `grub_util_find_root_devices_from_poolname`, built without
libzfs.  `pipe` is what `zpool status` gives: `none` when
`grub_util_exec_pipe` returns 0, `some none` when `fdopen` fails, else the
lines of the output as `getline` returns them.  The result is `none` for
`NULL`, else the entries of the array before its terminator. -/
def grub_util_find_root_devices_from_poolname (grub_isspace : Char → Bool)
    (pipe : Option (Option (List CStr))) (poolname : CStr) : Option (List CStr) :=
  match pipe with
  | none => none
  | some stream =>
    let devices :=
      match stream with
      | none => []
      | some lines => zpool_status_parse grub_isspace poolname lines
    -- `devices` is `NULL` until the first entry is stored
    if devices = [] then none else some devices

/-- Blank, tab, newline and carriage return: the whitespace of GRUB's own
`grub_isspace`, used where an example needs a value for the parameter
`grub_isspace`. -/
def blank4 (c : Char) : Bool := c = '\n' || c = '\r' || c = ' ' || c = '\t'

/-- An output of `zpool status tank`. -/
def statusTank : List CStr :=
  ["  pool: tank\n".toList, " state: ONLINE\n".toList, "config:\n".toList, "\n".toList,
   "\tNAME        STATE     READ WRITE CKSUM\n".toList,
   "\ttank        ONLINE       0     0     0\n".toList,
   "\t  mirror-0  ONLINE       0     0     0\n".toList,
   "\t    sda1    ONLINE       0     0     0\n".toList,
   "\t    /dev/disk/by-id/x  ONLINE       0     0     0\n".toList,
   "\t    sdb1    OFFLINE      0     0     0\n".toList,
   "\t  raidz1-0  ONLINE       0     0     0\n".toList,
   "\n".toList, "errors: No known data errors\n".toList]


/-- An unsigned number, with an optional sign, begins the string. -/
def starts_number : CStr → Bool
  | [] => false
  | c :: cs =>
    c.isDigit || ((c = '+' || c = '-') &&
      (match cs with
       | d :: _ => d.isDigit
       | [] => false))

/-- The name is `lit` followed by a number. -/
def numbered_label (lit name : CStr) : Bool :=
  lit.isPrefixOf name && starts_number (name.drop lit.length)

/-- The literals of the label patterns of lines 332-336. -/
def label_literals : List CStr :=
  ["mirror-".toList, "raidz".toList, "raidz1".toList, "raidz2".toList, "raidz3".toList]

/-- The redundancy-group labels: `mirror`, `mirror-N`, `raidzN`, `raidz1N`,
`raidz2N`, `raidz3N`. -/
def is_redundancy_label (name : CStr) : Bool :=
  name = "mirror".toList || label_literals.any (fun lit => numbered_label lit name)

/-- The path derived from the first token of a member row. -/
def device_path (name : CStr) : CStr :=
  if name.head? = some '/' then name else "/dev/".toList ++ name

/-- The header row of the status table. -/
def header_tokens : List CStr :=
  ["NAME".toList, "STATE".toList, "READ".toList, "WRITE".toList, "CKSUM".toList]

/-- The rows of a status text that have at least five tokens. -/
def table_rows (fieldsOf : CStr → List CStr) (lines : List CStr) : List (List CStr) :=
  (lines.map fieldsOf).filter (fun f => decide (5 ≤ f.length))

/-- The paths of the member rows among `rows`: the rows that are not labels
and are `ONLINE`. -/
def member_rows (rows : List (List CStr)) : List CStr :=
  (rows.filter (fun f => !is_redundancy_label (f.headD []) &&
      decide (f.get? 1 = some "ONLINE".toList))).map (fun f => device_path (f.headD []))

/-- The rows after the first row whose first token is the pool name. -/
def after_pool_row (poolname : CStr) (rows : List (List CStr)) : List (List CStr) :=
  (rows.dropWhile (fun f => decide (f.head? ≠ some poolname))).drop 1

/-- The rows after the first header row. -/
def after_header (rows : List (List CStr)) : List (List CStr) :=
  (rows.dropWhile (fun f => decide (f.take 5 ≠ header_tokens))).drop 1

/-- The device list as the specification describes it, for a way
`fieldsOf` of cutting a row into tokens: of the rows with at least five
tokens, those after the first row whose first token is the pool name, itself
after the first header row, that are not labels and are `ONLINE`. -/
def select_members (fieldsOf : CStr → List CStr) (poolname : CStr)
    (lines : List CStr) : List CStr :=
  member_rows (after_pool_row poolname (after_header (table_rows fieldsOf lines)))

/-- The first token of a line: the run of non-whitespace characters behind
its leading whitespace. -/
def first_token (line : CStr) : CStr :=
  (line.dropWhile isspace).takeWhile (fun c => !isspace c)

/-- What follows the first token of a line. -/
def after_first_token (line : CStr) : CStr :=
  (line.dropWhile isspace).dropWhile (fun c => !isspace c)

/-- The first token of the line fits the buffer `name[PATH_MAX + 1]` of line
271, into which the unbounded `%s` of line 305 writes it: it has at most
`path_max` characters.  `path_max` stands for the constant `PATH_MAX` of
`limits.h`.  For a longer first token the call of `sscanf` overruns the
buffer and `sscanf_fields` does not describe the program. -/
def name_fits (path_max : Nat) (line : CStr) : Prop :=
  (first_token line).length ≤ path_max

instance (path_max : Nat) (line : CStr) : Decidable (name_fits path_max line) := by
  unfold name_fits; infer_instance

/-- The loop of lines 293-343 with the buffer `name[PATH_MAX + 1]` of line
271 at its size: `sscanf` is called on every line read (line 305), and a first
token of more than `path_max` characters overruns `name`, after which the
program has no defined result (`none`).  When every first token fits, the
result is the device list of `zpool_status_parse`. -/
def zpool_status_parse_bounded (path_max : Nat) (grub_isspace : Char → Bool)
    (poolname : CStr) (lines : List CStr) : Option (List CStr) :=
  if lines.all (fun line => decide (name_fits path_max line)) then
    some (zpool_status_parse grub_isspace poolname lines)
  else none

/-- The lines of a status text that yield at least five fields. -/
def table_lines (lines : List CStr) : List CStr :=
  lines.filter (fun l => decide (5 ≤ (sscanf_fields l).length))

/-- The table lines after the first header line. -/
def lines_after_header (lines : List CStr) : List CStr :=
  ((table_lines lines).dropWhile
    (fun l => decide ((sscanf_fields l).take 5 ≠ header_tokens))).drop 1

/-- The pool row: the first table line after the header whose first field
is the pool name, when there is one. -/
def pool_row (poolname : CStr) (lines : List CStr) : Option CStr :=
  (lines_after_header lines).find?
    (fun l => decide ((sscanf_fields l).head? = some poolname))

/-- The table lines after the pool row. -/
def lines_after_pool_row (poolname : CStr) (lines : List CStr) : List CStr :=
  ((lines_after_header lines).dropWhile
    (fun l => decide ((sscanf_fields l).head? ≠ some poolname))).drop 1

/-- The function `grub_isspace` accepts the whitespace in front of the
first token of the line and the character right behind that token. -/
def pool_row_spaced (grub_isspace : Char → Bool) (line : CStr) : Prop :=
  (∀ c ∈ line.takeWhile isspace, grub_isspace c = true) ∧
    ∀ w ∈ (after_first_token line).head?, grub_isspace w = true

instance (grub_isspace : Char → Bool) (line : CStr) :
    Decidable (pool_row_spaced grub_isspace line) := by
  unfold pool_row_spaced; infer_instance

/-- The line is an `ONLINE` row whose first field is not a label and yet is
a prefix of one of the label literals: on such a field a scan of lines 332-336
runs out of input and returns `EOF`, which `!sscanf` reads as a match. -/
def label_cut_short (line : CStr) : Prop :=
  (sscanf_fields line).get? 1 = some "ONLINE".toList ∧
    is_redundancy_label ((sscanf_fields line).headD []) = false ∧
    ∃ lit ∈ label_literals, (sscanf_fields line).headD [] <+: lit

instance (line : CStr) : Decidable (label_cut_short line) := by
  unfold label_cut_short; infer_instance

/-- The texts on which the amended statement is made: no table line after
the pool row is cut short of a label pattern. -/
def labels_not_cut_short (poolname : CStr) (lines : List CStr) : Prop :=
  ∀ line ∈ lines_after_pool_row poolname lines, ¬ label_cut_short line

instance (poolname : CStr) (lines : List CStr) :
    Decidable (labels_not_cut_short poolname lines) := by
  unfold labels_not_cut_short; infer_instance

/-- A status text of the pool `raid` with the member row `sda1`. -/
def statusRaid : List CStr :=
  ["NAME STATE READ WRITE CKSUM\n".toList, "raid ONLINE 0 0 0\n".toList,
   "sda1 ONLINE 0 0 0\n".toList]

/-- A status text without member rows. -/
def statusNoMembers : List CStr :=
  ["NAME STATE READ WRITE CKSUM\n".toList, "tank ONLINE 0 0 0\n".toList,
   "sda1 OFFLINE 0 0 0\n".toList]

/-! ## `grub_util_pull_lvm_by_command` (lines 599-692) -/

/-- The macro `LVM_DEV_MAPPER_STRING` (not FreeBSD). -/
def LVM_DEV_MAPPER_STRING : CStr := "/dev/mapper/".toList

/-- The loop of lines 626-636 over the part of `os_dev` behind
`LVM_DEV_MAPPER_STRING`: the string left in `vgname`. -/
def lvm_vgname : CStr → CStr
  | [] => []
  | c :: rest =>
    if c ≠ '-' then c :: lvm_vgname rest
    else
      match rest with
      | [] => []
      | d :: rest' => if d = '-' then '-' :: lvm_vgname rest' else []

/-- The loop of line 675: `ptr` after at most two leading blanks of `buf`. -/
def skip_padding : CStr → CStr
  | [] => []
  | c :: rest =>
    if c = ' ' then
      match rest with
      | [] => []
      | d :: rest' => if d = ' ' then rest' else d :: rest'
    else c :: rest

/-- The body of the loop of lines 671-686 for one line `buf`: the argument
of the call of `grub_util_pull_device`, `none` when the line is skipped.
`grub_strncmp` and `grub_strlen` are GRUB's copies of `strncmp` and
`strlen`. -/
def lvm_line (vgid : Option CStr) (buf : CStr) : Option CStr :=
  let ptr := skip_padding buf
  match vgid with
  | some id =>
    if ptr.take id.length ≠ id ∨ ptr.getD id.length (Char.ofNat 0) ≠ ':' then none
    else
      let ptr := ptr.drop (id.length + 1)
      if ptr = [] then none else some ptr.dropLast
  | none => if ptr = [] then none else some ptr.dropLast

/-- The loop of lines 671-686 over the lines that `getline` returns: the
arguments of the calls of `grub_util_pull_device`, in order.  The loop ends
when `getline` does not return a positive length. -/
def lvm_lines (vgid : Option CStr) : List CStr → List CStr
  | [] => []
  | buf :: rest =>
    if 0 < buf.length then (lvm_line vgid buf).toList ++ lvm_lines vgid rest else []

/-- What a call of `grub_util_pull_lvm_by_command` does. -/
structure LvmRun where
  /-- The argument vector given to `grub_util_exec_pipe`, up to its first
  `NULL`; `none` when no command is run. -/
  argv : Option (List CStr)
  /-- The arguments of the calls of `grub_util_pull_device`, in order. -/
  pulled : List CStr
  deriving DecidableEq, Repr

/-- The function `grub_util_pull_lvm_by_command`.  `grub_util_get_vg_uuid`
gives the volume-group identifier, `none` for `NULL`; `vgs argv` is what the
command gives: `none` when `grub_util_exec_pipe` returns 0, `some none` when
`fdopen` fails, else the lines of the output. -/
def grub_util_pull_lvm_by_command (grub_util_get_vg_uuid : CStr → Option CStr)
    (vgs : List CStr → Option (Option (List CStr))) (os_dev : CStr) : LvmRun :=
  let vgid := grub_util_get_vg_uuid os_dev
  if vgid = none ∧ os_dev.take LVM_DEV_MAPPER_STRING.length ≠ LVM_DEV_MAPPER_STRING then
    ⟨none, []⟩
  else
    let vgname : Option CStr :=
      match vgid with
      | none => some (lvm_vgname (os_dev.drop LVM_DEV_MAPPER_STRING.length))
      | some _ => none
    let argv : List CStr :=
      ["vgs".toList, "--options".toList,
        (if vgid.isSome then "vg_uuid,pv_name".toList else "pv_name".toList),
        "--noheadings".toList, "--separator".toList, ":".toList] ++ vgname.toList
    match vgs argv with
    | none => ⟨some argv, []⟩
    | some none => ⟨some argv, []⟩
    | some (some lines) => ⟨some argv, lvm_lines vgid lines⟩

/-- The alias encoding of a name: every hyphen is doubled. -/
def esc : CStr → CStr
  | [] => []
  | c :: rest => if c = '-' then '-' :: '-' :: esc rest else c :: esc rest

/-- The line without its leading padding of up to two blanks. -/
def after_padding (line : CStr) : CStr :=
  line.drop (min 2 (line.takeWhile (fun c => c = ' ')).length)

/-- The identifier column of a line: the text after the padding up to the
first `:`. -/
def id_column (line : CStr) : CStr :=
  (after_padding line).takeWhile (fun c => c ≠ ':')

/-- A line is accepted. -/
def lvm_accepts (vgid : Option CStr) (line : CStr) : Bool :=
  match vgid with
  | none => true
  | some id => decide (':' ∈ after_padding line) && decide (id_column line = id)

/-- The physical-volume path column of a line: the padding, the
identifier column with its `:` (when an identifier is known) and the last
character, the newline, are removed. -/
def pv_column (vgid : Option CStr) (line : CStr) : CStr :=
  match vgid with
  | none => (after_padding line).dropLast
  | some _ => (((after_padding line).dropWhile (fun c => c ≠ ':')).drop 1).dropLast

/-- An output of `vgs --options vg_uuid,pv_name --noheadings --separator :`. -/
def vgsOutput : List CStr :=
  ["  abc:/dev/sda1\n".toList, "  abd:/dev/sdb1\n".toList, " abc:/dev/sdc 1\n".toList,
   "   abc:/dev/sdd\n".toList, "abc:\n".toList]

/-! ## `grub_guess_root_devices` (lines 526-595) -/

/-- What the host reports to `grub_guess_root_devices`. -/
structure RootHost where
  /-- The list returned by `grub_find_root_devices_from_mountinfo (dir, NULL)`,
  `none` for `NULL`. -/
  mountinfo_devices : CStr → Option (List CStr)
  /-- Mount source of a zfs filesystem, see `grub_find_zpool_from_dir`. -/
  zfs_mntfrom : CStr → Option CStr
  /-- The function `grub_isspace`. -/
  grub_isspace : Char → Bool
  /-- What `zpool status poolname` gives, see
  `grub_util_find_root_devices_from_poolname`. -/
  zpool_status : CStr → Option (Option (List CStr))
  /-- Result of `canonicalize_file_name`, `none` for `NULL`. -/
  canonicalize_file_name : CStr → Option CStr
  /-- Fields `st_dev` and `st_rdev` of `stat (path)`, `none` when `stat` fails. -/
  stat : CStr → Option (Nat × Nat)
  /-- What `opendir ("/dev")` finds. -/
  dev_dir : Node
  /-- What `opendir ("/dev/mapper")` finds. -/
  dev_mapper_dir : Node

/-- The function `find_root_devices_from_libzfs`. -/
def find_root_devices_from_libzfs (h : RootHost) (dir : CStr) : Option (List CStr) :=
  match (grub_find_zpool_from_dir h.zfs_mntfrom dir).1 with
  | none => none
  | some poolname =>
    grub_util_find_root_devices_from_poolname h.grub_isspace (h.zpool_status poolname)
      poolname

/-- The loop of lines 544-567 from the cell `cur` on, over the entries of
`os_dev` that are left.  The result is the cells as the loop leaves them,
from `cur` to the terminator, and whether the loop was left by `break`.  A
cell is `none` when it holds `NULL`. -/
def resolve_cells (h : RootHost) : List CStr → Outcome (List (Option CStr) × Bool)
  | [] => .ret ([], false)
  | tmp :: rest =>
    let canon : Option CStr :=
      if tmp = "/dev/root".toList ∨ tmp.take 8 = "/dev/dm-".toList then some tmp
      else h.canonicalize_file_name tmp
    match canon with
    | none => .fatal
    | some cur =>
      let root := decide (cur = "/dev/root".toList)
      let dm := decide (cur.take 8 = "/dev/dm-".toList)
      if !dm && !root then
        -- `continue`
        match resolve_cells h rest with
        | .ret (cells, broke) => .ret (some cur :: cells, broke)
        | .fatal => .fatal
        | .nofuel => .nofuel
      else
        match h.stat cur with
        | none => .ret (some cur :: rest.map some, true)
        | some st =>
          let found :=
            if dm then grub_find_device (some "/dev/mapper".toList) h.dev_mapper_dir st.2
            else grub_find_device (some "/dev".toList) h.dev_dir st.2
          -- `*cur` is overwritten, then `cur++` and the test `*cur` of the next cell
          match resolve_cells h rest with
          | .ret (cells, broke) => .ret (found :: cells, broke)
          | .fatal => .fatal
          | .nofuel => .nofuel

/-- Lines 576-594: the single-entry list of the full scan of `/dev`. -/
def guess_fallback (h : RootHost) (dir : CStr) : Outcome (Option (List (Option CStr))) :=
  match h.stat dir with
  | none => .fatal
  | some st =>
    match grub_find_device (some "/dev".toList) h.dev_dir st.1 with
    | none => .ret none
    | some d => .ret (some [some d])

/-- The function `grub_guess_root_devices`.  The result is `none` for
`NULL`, else the cells of the returned array before the terminator the
backend wrote; a cell is `none` when it holds `NULL`. -/
def grub_guess_root_devices (h : RootHost) (dir : CStr) :
    Outcome (Option (List (Option CStr))) :=
  let os_dev :=
    match h.mountinfo_devices dir with
    | some l => some l
    | none => find_root_devices_from_libzfs h dir
  match os_dev with
  | some devs =>
    match resolve_cells h devs with
    | .ret (cells, false) => .ret (some cells)
    | .ret (_, true) => guess_fallback h dir
    | .fatal => .fatal
    | .nofuel => .nofuel
  | none => guess_fallback h dir

/-- The device list a caller reads from the cells of an array: the
strings before the first `NULL`. -/
def visible_list (cells : List (Option CStr)) : List CStr :=
  (cells.takeWhile Option.isSome).filterMap id

/-- A host whose mount table names `/dev/dm-0` and `/dev/sda1` for `/boot`;
`/dev/dm-0` has device number 9, which no entry of `/dev/mapper` has; `/boot`
is on device 7. -/
def hostDm : RootHost where
  mountinfo_devices := fun _ => some ["/dev/dm-0".toList, "/dev/sda1".toList]
  zfs_mntfrom := fun _ => none
  grub_isspace := blank4
  zpool_status := fun _ => none
  canonicalize_file_name := fun p => some p
  stat := fun q => if q = "/dev/dm-0".toList then some (5, 9) else some (7, 0)
  dev_dir := devTree
  dev_mapper_dir := .dir "/dev/mapper".toList (some [("control".toList, .file false 3)])

/-- The host `hostDm`, except that `stat` fails on `/dev/dm-0`. -/
def hostDmStatFails : RootHost :=
  { hostDm with
    stat := fun q => if q = "/dev/dm-0".toList then none else some (7, 0) }

/-! ## Vocabulary for the statements about pooled filesystems -/

/-- The value of an `Outcome` under a function. -/
def Outcome.map {α β : Type} (f : α → β) : Outcome α → Outcome β
  | .ret v => .ret (f v)
  | .fatal => .fatal
  | .nofuel => .nofuel

/-- The dataset name within the pool: the part of the mount source after
its first `/`, empty when there is none. -/
def dataset_name (src : CStr) : CStr :=
  (src.dropWhile (fun c => decide (c ≠ '/'))).drop 1

/-- The marker segment put in front of the offset on a pooled filesystem:
`/`, the dataset name, `/@`. -/
def pool_marker (d : CStr) : CStr :=
  '/' :: d ++ ['/', '@']

/-- The same host with no filesystem reported as pooled. -/
def non_pooled (h : Host) : Host :=
  { h with zfs_mntfrom := fun _ => none }

/-- A host on which `/tank/data` is the mount point of the dataset
`tank/data/home` (device 3), everything else on device 1; no bind mount. -/
def hostPool : Host where
  canonicalize_file_name := fun p => some p
  stat := fun q => some (if "/tank/data".toList <+: q then 3 else 1)
  zfs_mntfrom := fun q =>
    if "/tank/data".toList <+: q then some "tank/data/home".toList else none
  mountinfo_bind := fun _ => none

/-! ## Vocabulary for the statements about `strip_extra_slashes` -/

/-- The non-separator components of a path: the non-empty pieces between
its slashes, in order. -/
def components (s : CStr) : List CStr :=
  (s.splitOnP (fun c => decide (c = '/'))).filter (fun t => decide (t ≠ []))

/-! ## Lemmas on the string helpers -/

theorem strrchr_eq_none {s : CStr} {c : Char} : strrchr s c = none ↔ c ∉ s := by
  induction s with
  | nil => simp [strrchr]
  | cons x xs ih =>
    unfold strrchr
    cases hx : strrchr xs c with
    | none =>
      have hc := ih.mp hx
      by_cases hxc : x = c
      · simp [hxc]
      · simp [hxc, hc, Ne.symm hxc]
    | some i =>
      have hc : c ∈ xs := by
        by_contra hcon
        rw [ih.mpr hcon] at hx
        cases hx
      simp [hc]

theorem strrchr_some {s : CStr} {c : Char} {i : Nat} (h : strrchr s c = some i) :
    i < s.length ∧ s[i]? = some c ∧ ∀ j, i < j → s[j]? ≠ some c := by
  induction s generalizing i with
  | nil => simp [strrchr] at h
  | cons x xs ih =>
    unfold strrchr at h
    cases hx : strrchr xs c with
    | none =>
      rw [hx] at h
      by_cases hxc : x = c
      · simp [hxc] at h
        subst h
        refine ⟨by simp, by simp [hxc], ?_⟩
        intro j hj hcon
        obtain ⟨k, rfl⟩ : ∃ k, j = k + 1 := ⟨j - 1, by omega⟩
        simp at hcon
        have hmem : c ∈ xs := List.getElem?_mem hcon
        exact (strrchr_eq_none.mp hx) hmem
      · simp [hxc] at h
    | some k =>
      rw [hx] at h
      simp at h
      subst h
      obtain ⟨h1, h2, h3⟩ := ih hx
      refine ⟨by simp; omega, by simpa using h2, ?_⟩
      intro j hj
      obtain ⟨m, rfl⟩ : ∃ m, j = m + 1 := ⟨j - 1, by omega⟩
      simpa using h3 m (by omega)

theorem strrchr_isSome_of_head {s : CStr} {c : Char} (h : s.head? = some c) :
    ∃ i, strrchr s c = some i := by
  cases hs : strrchr s c with
  | some i => exact ⟨i, rfl⟩
  | none =>
    exfalso
    have := strrchr_eq_none.mp hs
    cases s with
    | nil => simp at h
    | cons x xs =>
      simp at h
      subst h
      simp at this

/-! ## The walk always ends -/

theorem walkLoop_ne_nofuel (stat : CStr → Option Nat) (num : Nat) :
    ∀ (fuel : Nat) (buf : CStr) (offset : Nat), buf.length < fuel →
      walkLoop stat num fuel buf offset ≠ .nofuel := by
  intro fuel
  induction fuel with
  | zero => intro buf offset h; omega
  | succ n ih =>
    intro buf offset hlen
    unfold walkLoop
    cases hs : strrchr buf '/' with
    | none => simp
    | some i =>
      obtain ⟨hi, -, -⟩ := strrchr_some hs
      simp only
      cases hst : stat (if i ≠ 0 then List.take i buf else List.take 1 buf) with
      | none => simp
      | some d =>
        simp only
        by_cases hd : d ≠ num
        · rw [if_pos hd]
          split <;> simp
        · rw [if_neg hd]
          by_cases hp : (if i ≠ 0 then i else 1) = 1
          · rw [if_pos hp]; simp
          · rw [if_neg hp]
            have hi0 : i ≠ 0 := by
              intro h0; simp [h0] at hp
            rw [if_pos hi0]
            apply ih
            simp [List.length_take]
            omega

theorem walkLoop_total (stat : CStr → Option Nat) (num : Nat)
    (hstat : ∀ q, (stat q).isSome) :
    ∀ (fuel : Nat) (buf : CStr) (offset : Nat), buf.length < fuel →
      buf.head? = some '/' → ∃ e, walkLoop stat num fuel buf offset = .ret e := by
  intro fuel
  induction fuel with
  | zero => intro buf offset h; omega
  | succ n ih =>
    intro buf offset hlen hhead
    unfold walkLoop
    obtain ⟨i, hs⟩ := strrchr_isSome_of_head hhead
    obtain ⟨hi, -, -⟩ := strrchr_some hs
    rw [hs]
    simp only
    cases hst : stat (if i ≠ 0 then List.take i buf else List.take 1 buf) with
    | none =>
      have := hstat (if i ≠ 0 then List.take i buf else List.take 1 buf)
      rw [hst] at this
      simp at this
    | some d =>
      simp only
      by_cases hd : d ≠ num
      · rw [if_pos hd]
        split <;> simp
      · rw [if_neg hd]
        by_cases hp : (if i ≠ 0 then i else 1) = 1
        · rw [if_pos hp]; simp
        · rw [if_neg hp]
          have hi0 : i ≠ 0 := by
            intro h0; simp [h0] at hp
          rw [if_pos hi0]
          apply ih
          · simp [List.length_take]
            omega
          · rw [List.head?_take, if_neg hi0]
            exact hhead

/-! ## No trailing slash -/

theorem parsedir_getLast (poolfs : Option CStr) (buf3 : CStr) :
    (parsedir poolfs buf3).getLast? ≠ some '/' := by
  have key : (buf3.rdropWhile (· = '/')).getLast? ≠ some '/' := by
    intro hcon
    have hne : buf3.rdropWhile (· = '/') ≠ [] := by
      intro h0; rw [h0] at hcon; simp at hcon
    have := List.rdropWhile_last_not (p := (· = '/')) (l := buf3) hne
    rw [List.getLast?_eq_getLast _ hne] at hcon
    simp at hcon
    simp [hcon] at this
  unfold parsedir
  cases poolfs with
  | none => simpa using key
  | some fs =>
    simp only
    intro hcon
    rw [show ('/' :: fs ++ '/' :: '@' :: buf3.rdropWhile (· = '/'))
          = ('/' :: fs ++ ['/']) ++ ('@' :: buf3.rdropWhile (· = '/')) by simp] at hcon
    rw [List.getLast?_append] at hcon
    cases hb : buf3.rdropWhile (· = '/') with
    | nil => rw [hb] at hcon; simp at hcon
    | cons x xs =>
      rw [hb] at hcon key
      simp [List.getLast?_cons_cons] at hcon key
      exact key hcon

/-- C1: whatever the host reports (device identifiers, bind strings, pool
dataset names), a string returned by
`grub_make_system_path_relative_to_its_root` does not end with `/`.  The
iteration bound of the loop model is never exhausted, and when every `stat`
succeeds and the canonical path begins with `/` a string is returned. -/
theorem relative_path_no_trailing_slash (h : Host) (path : CStr) :
    (∀ r, grub_make_system_path_relative_to_its_root h path = .ret r →
      r.getLast? ≠ some '/') ∧
    grub_make_system_path_relative_to_its_root h path ≠ .nofuel ∧
    ((∀ q, (h.stat q).isSome) → ∀ p, h.canonicalize_file_name path = some p →
      p.head? = some '/' →
      ∃ r, grub_make_system_path_relative_to_its_root h path = .ret r) := by
  refine ⟨?_, ?_, ?_⟩
  · intro r hr
    cases hc : h.canonicalize_file_name path with
    | none => simp [grub_make_system_path_relative_to_its_root, hc] at hr
    | some p =>
      cases hs : h.stat p with
      | none => simp [grub_make_system_path_relative_to_its_root, hc, hs] at hr
      | some num =>
        cases hw : walkLoop h.stat num (p.length + 1) p 0 with
        | fatal => simp [grub_make_system_path_relative_to_its_root, hc, hs, hw] at hr
        | nofuel => simp [grub_make_system_path_relative_to_its_root, hc, hs, hw] at hr
        | ret e =>
          cases e with
          | mountPoint =>
            cases hb : usable_bind (h.mountinfo_bind p) with
            | some bind =>
              simp only [grub_make_system_path_relative_to_its_root, hc, hs, hw, hb,
                Outcome.ret.injEq] at hr
              subst hr; exact parsedir_getLast _ _
            | none =>
              cases hz : (grub_find_zpool_from_dir h.zfs_mntfrom p).2 with
              | none =>
                simp only [grub_make_system_path_relative_to_its_root, hc, hs, hw, hb, hz,
                  Outcome.ret.injEq] at hr
                subst hr; simp
              | some fs =>
                simp only [grub_make_system_path_relative_to_its_root, hc, hs, hw, hb, hz,
                  Outcome.ret.injEq] at hr
                subst hr
                rw [show ('/' :: fs ++ ['/', '@']) = ('/' :: fs ++ ['/']) ++ ['@'] by simp,
                  List.getLast?_append]
                simp
          | broke o =>
            simp only [grub_make_system_path_relative_to_its_root, hc, hs, hw,
              Outcome.ret.injEq] at hr
            subst hr; exact parsedir_getLast _ _
  · cases hc : h.canonicalize_file_name path with
    | none => simp [grub_make_system_path_relative_to_its_root, hc]
    | some p =>
      cases hs : h.stat p with
      | none => simp [grub_make_system_path_relative_to_its_root, hc, hs]
      | some num =>
        have hne := walkLoop_ne_nofuel h.stat num (p.length + 1) p 0 (by omega)
        cases hw : walkLoop h.stat num (p.length + 1) p 0 with
        | fatal => simp [grub_make_system_path_relative_to_its_root, hc, hs, hw]
        | nofuel => exact absurd hw hne
        | ret e =>
          cases e with
          | mountPoint =>
            cases hb : usable_bind (h.mountinfo_bind p) with
            | some bind => simp [grub_make_system_path_relative_to_its_root, hc, hs, hw, hb]
            | none =>
              cases hz : (grub_find_zpool_from_dir h.zfs_mntfrom p).2 <;>
                simp [grub_make_system_path_relative_to_its_root, hc, hs, hw, hb, hz]
          | broke o => simp [grub_make_system_path_relative_to_its_root, hc, hs, hw]
  · intro hstat p hp hhead
    unfold grub_make_system_path_relative_to_its_root
    rw [hp]
    simp only
    cases hs : h.stat p with
    | none => have := hstat p; rw [hs] at this; simp at this
    | some num =>
      simp only
      obtain ⟨e, he⟩ := walkLoop_total h.stat num hstat (p.length + 1) p 0 (by omega) hhead
      rw [he]
      cases e with
      | mountPoint =>
        simp only
        split
        · exact ⟨_, rfl⟩
        · split <;> exact ⟨_, rfl⟩
      | broke o => exact ⟨_, rfl⟩

/-! ## The mount boundary found by the walk -/

theorem walkLoop_spec (dev : CStr → Nat) (p : CStr) (num : Nat)
    (hhead : p.head? = some '/') :
    ∀ (fuel k offset : Nat), k < fuel → isDirIndex p k →
      (offset = 0 ∨ (offset = k ∧ k < p.length)) →
      (∀ j, k ≤ j → isDirIndex p j → dev (p.take j) = num) →
      ∃ e, walkLoop (fun q => some (dev q)) num fuel (p.take k) offset = .ret e ∧
        WalkPost dev p num k offset e := by
  intro fuel
  induction fuel with
  | zero => intro k offset h; omega
  | succ n ih =>
    intro k offset hfuel hk hoff hinv
    obtain ⟨hk1, hkp, hkd⟩ := hk
    have hhead' : (p.take k).head? = some '/' := by
      rw [List.head?_take, if_neg (by omega)]; exact hhead
    obtain ⟨i, hs⟩ := strrchr_isSome_of_head hhead'
    obtain ⟨hi, hget, hlast⟩ := strrchr_some hs
    have hik : i < k := by
      rw [List.length_take] at hi; omega
    have hpi : p[i]? = some '/' := by
      rw [List.getElem?_take_of_lt hik] at hget; exact hget
    have hlast' : ∀ j, i < j → j < k → p[j]? ≠ some '/' := by
      intro j hij hjk
      have := hlast j hij
      rwa [List.getElem?_take_of_lt hjk] at this
    have htake : (if i ≠ 0 then (p.take k).take i else (p.take k).take 1)
        = p.take (max i 1) := by
      by_cases h0 : i = 0
      · subst h0
        simp [List.take_take, Nat.min_eq_left hk1]
      · rw [if_pos h0, List.take_take, Nat.min_eq_left (le_of_lt hik),
          Nat.max_eq_left (by omega)]
    have hdirname : dirname (p.take k) = p.take (max i 1) := by
      unfold dirname
      rw [hs]
      cases i with
      | zero => simp [List.take_take, Nat.min_eq_left hk1]
      | succ m =>
        simp only
        rw [List.take_take, Nat.min_eq_left (le_of_lt hik), Nat.max_eq_left (by omega)]
    unfold walkLoop
    rw [hs]
    simp only
    rw [htake]
    by_cases hd : dev (p.take (max i 1)) = num
    · rw [if_neg (by simpa using hd)]
      by_cases hi1 : i ≤ 1
      · have hp1 : (if i ≠ 0 then i else 1) = 1 := by
          by_cases h0 : i = 0
          · simp [h0]
          · rw [if_pos h0]; omega
        rw [if_pos hp1]
        refine ⟨.broke 0, rfl, by omega, ?_, by simp, fun _ => by rw [hdirname]; exact hd⟩
        intro j _ hj
        by_cases hjk : k ≤ j
        · exact hinv j hjk hj
        · obtain ⟨hj1, hjp, hjd⟩ := hj
          have hj1' : j = 1 := by
            rcases hjd with h | h | h
            · exact h
            · omega
            · by_contra hne
              exact hlast' j (by omega) (by omega) h
          subst hj1'
          have : max i 1 = 1 := by omega
          rw [this] at hd
          exact hd
      · have hp1 : ¬ (if i ≠ 0 then i else 1) = 1 := by
          rw [if_pos (by omega)]; omega
        rw [if_neg hp1, if_pos (by omega)]
        have hmax : max i 1 = i := by omega
        have hd0 := hd
        rw [hmax] at hd
        rw [hmax]
        have hinv' : ∀ j, i ≤ j → isDirIndex p j → dev (p.take j) = num := by
          intro j hij hj
          by_cases hjk : k ≤ j
          · exact hinv j hjk hj
          · obtain ⟨hj1, hjp, hjd⟩ := hj
            have hji : j = i := by
              rcases hjd with h | h | h
              · omega
              · omega
              · by_contra hne
                exact hlast' j (by omega) (by omega) h
            rw [hji]; exact hd
        obtain ⟨e, he, hpost⟩ := ih i i (by omega) ⟨by omega, by omega, Or.inr (Or.inr hpi)⟩
          (Or.inr ⟨rfl, by omega⟩) hinv'
        refine ⟨e, he, ?_⟩
        cases e with
        | mountPoint =>
          obtain ⟨h0, -⟩ := hpost
          omega
        | broke o =>
          exact ⟨hpost.1, hpost.2.1, hpost.2.2.1, fun _ => by rw [hdirname]; exact hd0⟩
    · rw [if_pos (by simpa using hd)]
      by_cases ho : offset = 0
      · rw [if_pos ho]
        refine ⟨.mountPoint, rfl, ho, ?_⟩
        rw [hdirname]; exact hd
      · rw [if_neg ho]
        obtain ⟨hok, hkp'⟩ : offset = k ∧ k < p.length := by
          rcases hoff with h | h
          · exact absurd h ho
          · exact h
        subst hok
        refine ⟨.broke offset, rfl, hkp', hinv, ?_, fun h0 => absurd h0 ho⟩
        intro _
        refine ⟨⟨hk1, hkp, hkd⟩, ?_⟩
        rw [hdirname]; exact hd

/-- On a host where every `stat` succeeds, no bind string is usable and the
path is not on a pool, the function returns the part of the canonical path
behind the offset found by the walk, without trailing slashes. -/
theorem relative_plain (h : Host) (dev : CStr → Nat) (path p : CStr)
    (hc : h.canonicalize_file_name path = some p)
    (hstat : ∀ q, h.stat q = some (dev q))
    (hpool : h.zfs_mntfrom p = none)
    (hbind : ∀ q, usable_bind (h.mountinfo_bind q) = none)
    (hhead : p.head? = some '/') :
    ∃ e, WalkPost dev p (dev p) p.length 0 e ∧
      grub_make_system_path_relative_to_its_root h path =
        .ret (match e with
          | .mountPoint => []
          | .broke o => (p.drop o).rdropWhile (· = '/')) := by
  have hlen : 1 ≤ p.length := by
    cases p with
    | nil => simp at hhead
    | cons x xs => simp
  have hstat' : h.stat = fun q => some (dev q) := funext hstat
  obtain ⟨e, he, hpost⟩ := walkLoop_spec dev p (dev p) hhead (p.length + 1) p.length 0
    (by omega) ⟨hlen, le_refl _, Or.inr (Or.inl rfl)⟩ (Or.inl rfl)
    (by
      intro j hj hdir
      have : j = p.length := le_antisymm hdir.2.1 hj
      rw [this, List.take_length])
  rw [List.take_length] at he
  refine ⟨e, hpost, ?_⟩
  have hz : (grub_find_zpool_from_dir h.zfs_mntfrom p).2 = none := by
    simp [grub_find_zpool_from_dir, hpool]
  cases e with
  | mountPoint =>
    simp only [grub_make_system_path_relative_to_its_root, hc, hstat', he, hbind, hz]
  | broke o =>
    simp only [grub_make_system_path_relative_to_its_root, hc, hstat', he, hbind, hz, parsedir]

theorem dirname_eq_take (p : CStr) (hhead : p.head? = some '/') :
    ∃ i, strrchr p '/' = some i ∧ i < p.length ∧ p[i]? = some '/' ∧
      (∀ j, i < j → p[j]? ≠ some '/') ∧ dirname p = p.take (max i 1) := by
  obtain ⟨i, hs⟩ := strrchr_isSome_of_head hhead
  obtain ⟨hi, hget, hlast⟩ := strrchr_some hs
  refine ⟨i, hs, hi, hget, hlast, ?_⟩
  unfold dirname
  rw [hs]
  cases i with
  | zero => simp
  | succ m =>
    simp only
    rw [Nat.max_eq_left (by omega)]

theorem rdropWhile_slash_eq_self {s : CStr} (hs : s.getLast? ≠ some '/') :
    s.rdropWhile (· = '/') = s := by
  rw [List.rdropWhile_eq_self_iff]
  intro hl hcon
  apply hs
  rw [List.getLast?_eq_getLast _ hl]
  simpa using hcon

/-- C2: for a canonical absolute path `p`, not on a pool and with no usable
bind string, the function returns the empty string exactly when `p` is `/`
or the device identifier of the parent directory of `p` differs from that
of `p`. -/
theorem empty_offset_iff_filesystem_root (h : Host) (dev : CStr → Nat) (path p : CStr)
    (hc : h.canonicalize_file_name path = some p)
    (hstat : ∀ q, h.stat q = some (dev q))
    (hpool : h.zfs_mntfrom p = none)
    (hbind : ∀ q, usable_bind (h.mountinfo_bind q) = none)
    (hcanon : Canonical p) :
    grub_make_system_path_relative_to_its_root h path = .ret [] ↔
      (p = ['/'] ∨ dev (dirname p) ≠ dev p) := by
  obtain ⟨hhead, htail⟩ := hcanon
  obtain ⟨e, hpost, hres⟩ := relative_plain h dev path p hc hstat hpool hbind hhead
  rw [hres]
  cases e with
  | mountPoint =>
    obtain ⟨-, hd⟩ := hpost
    rw [List.take_length] at hd
    simp [hd]
  | broke o =>
    obtain ⟨hop, -, -, hd⟩ := hpost
    rw [List.take_length] at hd
    simp only [Outcome.ret.injEq]
    constructor
    · intro hnil
      left
      rcases htail with h1 | h1
      · exact h1
      · exfalso
        have hlast : (p.drop o).getLast? ≠ some '/' := by
          rw [List.getLast?_drop, if_neg (by omega)]; exact h1
        rw [rdropWhile_slash_eq_self hlast] at hnil
        have := congrArg List.length hnil
        simp at this
        omega
    · intro hor
      rcases hor with h1 | h1
      · subst h1
        have : o = 0 := by simpa using hop
        subst this
        simp [List.rdropWhile_singleton]
      · exact absurd (hd rfl) h1

/-- C2 at `/mnt/data` on `hostMnt`: the parent `/mnt` is on another device
and the offset is empty. -/
theorem empty_offset_iff_filesystem_root_witness :
    Canonical "/mnt/data".toList ∧
    (grub_make_system_path_relative_to_its_root hostMnt "/mnt/data".toList = .ret [] ↔
      ("/mnt/data".toList = ['/'] ∨
        devMnt (dirname "/mnt/data".toList) ≠ devMnt "/mnt/data".toList)) :=
  ⟨by decide,
   empty_offset_iff_filesystem_root hostMnt devMnt "/mnt/data".toList "/mnt/data".toList
    rfl (fun _ => rfl) rfl (fun _ => rfl) (by decide)⟩

theorem mem_ancestorsOrSelf {p q : CStr} :
    q ∈ ancestorsOrSelf p ↔ ∃ j, isDirIndex p j ∧ p.take j = q := by
  unfold ancestorsOrSelf
  simp only [List.mem_map, List.mem_filter, List.mem_range, decide_eq_true_eq]
  constructor
  · rintro ⟨j, ⟨-, hj⟩, rfl⟩
    exact ⟨j, hj, rfl⟩
  · rintro ⟨j, hj, rfl⟩
    exact ⟨j, ⟨by have := hj.2.1; omega, hj⟩, rfl⟩

/-- C3: for a canonical absolute path `p` other than `/`, not on a pool and
with no usable bind string, the returned offset `r` is a suffix of `p`; the
prefix `m` before it is the mount root: `p` and every ancestor directory of
`p` that is at least as long as `m` are on the device of `p`, and `m` is
either empty (the filesystem root is `/`) or an ancestor-or-self of `p`
whose parent directory is on another device. -/
theorem mount_root_round_trip (h : Host) (dev : CStr → Nat) (path p : CStr)
    (hc : h.canonicalize_file_name path = some p)
    (hstat : ∀ q, h.stat q = some (dev q))
    (hpool : h.zfs_mntfrom p = none)
    (hbind : ∀ q, usable_bind (h.mountinfo_bind q) = none)
    (hcanon : Canonical p) (hne : p ≠ ['/']) :
    ∃ m r, grub_make_system_path_relative_to_its_root h path = .ret r ∧
      m ++ r = p ∧
      (∀ q ∈ ancestorsOrSelf p, m.length ≤ q.length → dev q = dev p) ∧
      (m = [] ∨ (m ∈ ancestorsOrSelf p ∧ dev (dirname m) ≠ dev p)) := by
  obtain ⟨hhead, htail⟩ := hcanon
  have htail' : p.getLast? ≠ some '/' := by
    rcases htail with h1 | h1
    · exact absurd h1 hne
    · exact h1
  have hlen : 1 ≤ p.length := by
    cases p with
    | nil => simp at hhead
    | cons x xs => simp
  obtain ⟨e, hpost, hres⟩ := relative_plain h dev path p hc hstat hpool hbind hhead
  cases e with
  | mountPoint =>
    obtain ⟨-, hd⟩ := hpost
    rw [List.take_length] at hd
    refine ⟨p, [], hres, by simp, ?_, Or.inr ⟨?_, hd⟩⟩
    · intro q hq hlq
      obtain ⟨j, hj, rfl⟩ := mem_ancestorsOrSelf.mp hq
      have hjp := hj.2.1
      rw [List.length_take, Nat.min_eq_left hjp] at hlq
      have : j = p.length := le_antisymm hjp hlq
      rw [this, List.take_length]
    · exact mem_ancestorsOrSelf.mpr ⟨p.length, ⟨hlen, le_refl _, Or.inr (Or.inl rfl)⟩,
        List.take_length p⟩
  | broke o =>
    obtain ⟨hop, hall, hroot, -⟩ := hpost
    have hlast : (p.drop o).getLast? ≠ some '/' := by
      rw [List.getLast?_drop, if_neg (by omega)]; exact htail'
    simp only at hres
    rw [rdropWhile_slash_eq_self hlast] at hres
    refine ⟨p.take o, p.drop o, hres, List.take_append_drop o p, ?_, ?_⟩
    · intro q hq hlq
      obtain ⟨j, hj, rfl⟩ := mem_ancestorsOrSelf.mp hq
      have hjp := hj.2.1
      rw [List.length_take, List.length_take, Nat.min_eq_left hjp,
        Nat.min_eq_left (le_of_lt hop)] at hlq
      exact hall j hlq hj
    · by_cases ho : o = 0
      · left; simp [ho]
      · right
        obtain ⟨hdir, hd⟩ := hroot ho
        exact ⟨mem_ancestorsOrSelf.mpr ⟨o, hdir, rfl⟩, hd⟩

/-- C3 at `/mnt/data/sub/file.txt` on `hostMnt`. -/
theorem mount_root_round_trip_witness :
    Canonical "/mnt/data/sub/file.txt".toList ∧
    ∃ m r, grub_make_system_path_relative_to_its_root hostMnt
        "/mnt/data/sub/file.txt".toList = .ret r ∧
      m ++ r = "/mnt/data/sub/file.txt".toList ∧
      (∀ q ∈ ancestorsOrSelf "/mnt/data/sub/file.txt".toList, m.length ≤ q.length →
        devMnt q = devMnt "/mnt/data/sub/file.txt".toList) ∧
      (m = [] ∨ (m ∈ ancestorsOrSelf "/mnt/data/sub/file.txt".toList ∧
        devMnt (dirname m) ≠ devMnt "/mnt/data/sub/file.txt".toList)) :=
  ⟨by decide,
   mount_root_round_trip hostMnt devMnt "/mnt/data/sub/file.txt".toList
    "/mnt/data/sub/file.txt".toList rfl (fun _ => rfl) rfl (fun _ => rfl)
    (by decide) (by decide)⟩

/-- C4, as stated, fails: on `hostMnt`, where `/mnt/data` is a filesystem of
its own, the function returns `/file.txt` for `/mnt/data/file.txt` (not the
empty string) and `/sub/file.txt` for `/mnt/data/sub/file.txt` (not `/sub`):
the name of the file is part of the result. -/
theorem file_below_mount_root_counterexample :
    grub_make_system_path_relative_to_its_root hostMnt "/mnt/data/file.txt".toList
        = .ret "/file.txt".toList ∧
      grub_make_system_path_relative_to_its_root hostMnt "/mnt/data/file.txt".toList
        ≠ .ret [] ∧
      grub_make_system_path_relative_to_its_root hostMnt "/mnt/data/sub/file.txt".toList
        = .ret "/sub/file.txt".toList ∧
      grub_make_system_path_relative_to_its_root hostMnt "/mnt/data/sub/file.txt".toList
        ≠ .ret "/sub".toList := by
  decide

/-- C4 as amended: let `M`, different from `/`, be the root of a separately
mounted filesystem (its parent directory is on another device), not on a
pool and with no usable bind string, and let the canonical path be `M ++ r`
with `r` beginning with `/`, where `M`, the path and every directory between
them are on one device.  Then the function returns `r`: the path of the file
relative to `M`, the name of the file included. -/
theorem file_below_mount_root (h : Host) (dev : CStr → Nat) (path M r : CStr)
    (hc : h.canonicalize_file_name path = some (M ++ r))
    (hstat : ∀ q, h.stat q = some (dev q))
    (hpool : h.zfs_mntfrom (M ++ r) = none)
    (hbind : ∀ q, usable_bind (h.mountinfo_bind q) = none)
    (hM : Canonical M) (hMne : M ≠ ['/'])
    (hr : r.head? = some '/') (hrl : r.getLast? ≠ some '/')
    (hroot : dev (dirname M) ≠ dev (M ++ r))
    (hsame : ∀ q ∈ ancestorsOrSelf (M ++ r), M.length ≤ q.length → dev q = dev (M ++ r)) :
    grub_make_system_path_relative_to_its_root h path = .ret r := by
  obtain ⟨hMhead, hMtail⟩ := hM
  have hMlast : M.getLast? ≠ some '/' := by
    rcases hMtail with h1 | h1
    · exact absurd h1 hMne
    · exact h1
  have hM2 : 2 ≤ M.length := by
    match M, hMhead, hMne, hMlast with
    | [], hh, _, _ => simp at hh
    | [x], hh, hn, _ => simp at hh; subst hh; exact absurd rfl hn
    | _ :: _ :: _, _, _, _ => simp
  have hrlen : 1 ≤ r.length := by
    cases r with
    | nil => simp at hr
    | cons x xs => simp
  have hplen : (M ++ r).length = M.length + r.length := List.length_append _ _
  have hphead : (M ++ r).head? = some '/' := by
    cases M with
    | nil => simp at hMhead
    | cons x xs => simpa using hMhead
  -- the character of the path at index `|M|` is the slash that begins `r`
  have hpM : (M ++ r)[M.length]? = some '/' := by
    rw [List.getElem?_append_right (le_refl _)]
    cases r with
    | nil => simp at hr
    | cons x xs => simpa using hr
  have hpget : ∀ j, j < M.length → (M ++ r)[j]? = M[j]? := by
    intro j hj
    exact List.getElem?_append_left hj
  have hptake : ∀ j, j ≤ M.length → (M ++ r).take j = M.take j := by
    intro j hj
    exact List.take_append_of_le_length hj
  have hdev : ∀ j, M.length ≤ j → isDirIndex (M ++ r) j →
      dev ((M ++ r).take j) = dev (M ++ r) := by
    intro j hj hdir
    apply hsame _ (mem_ancestorsOrSelf.mpr ⟨j, hdir, rfl⟩)
    rw [List.length_take, Nat.min_eq_left hdir.2.1]
    exact hj
  -- the parent directory of `M` is a prefix of the path
  obtain ⟨i', -, hi'lt, hi'get, hi'last, hi'dir⟩ := dirname_eq_take M hMhead
  have hparent : dirname M = (M ++ r).take (max i' 1) := by
    rw [hi'dir, hptake _ (by omega)]
  have hparentDir : isDirIndex (M ++ r) (max i' 1) := by
    refine ⟨by omega, by omega, ?_⟩
    by_cases h0 : i' = 0
    · left; simp [h0]
    · right; right
      rw [Nat.max_eq_left (by omega), hpget _ hi'lt]
      exact hi'get
  obtain ⟨e, hpost, hres⟩ :=
    relative_plain h dev path (M ++ r) hc hstat hpool hbind hphead
  rw [hres]
  cases e with
  | mountPoint =>
    exfalso
    obtain ⟨-, hd⟩ := hpost
    rw [List.take_length] at hd
    obtain ⟨i, -, hilt, higet, hilast, hidir⟩ := dirname_eq_take (M ++ r) hphead
    have hiM : M.length ≤ i := by
      by_contra hcon
      exact hilast M.length (by omega) hpM
    rw [hidir, Nat.max_eq_left (by omega)] at hd
    exact hd (hdev i hiM ⟨by omega, by omega, Or.inr (Or.inr higet)⟩)
  | broke o =>
    obtain ⟨hop, hall, hbreak, -⟩ := hpost
    have hoM : o = M.length := by
      by_contra hne
      by_cases ho0 : o = 0
      · subst ho0
        apply hroot
        rw [hparent]
        exact hall _ (Nat.zero_le _) hparentDir
      obtain ⟨hodir, hod⟩ := hbreak ho0
      rcases Nat.lt_or_gt_of_ne hne with hlt | hgt
      · apply hroot
        rw [hparent]
        apply hall _ _ hparentDir
        obtain ⟨ho1, hop', hod'⟩ := hodir
        rcases hod' with h1 | h1 | h1
        · omega
        · omega
        · rw [hpget _ hlt] at h1
          by_contra hcon
          exact hi'last o (by omega) h1
      · have hhead' : ((M ++ r).take o).head? = some '/' := by
          rw [List.head?_take, if_neg ho0]; exact hphead
        obtain ⟨i, -, hilt, higet, hilast, hidir⟩ := dirname_eq_take _ hhead'
        rw [List.length_take, Nat.min_eq_left (le_of_lt hop)] at hilt
        have hiM : M.length ≤ i := by
          by_contra hcon
          apply hilast M.length (by omega)
          rw [List.getElem?_take_of_lt hgt]
          exact hpM
        rw [List.getElem?_take_of_lt hilt] at higet
        rw [hidir, List.take_take, Nat.max_eq_left (by omega),
          Nat.min_eq_left (le_of_lt hilt)] at hod
        exact hod (hdev i hiM ⟨by omega, by omega, Or.inr (Or.inr higet)⟩)
    subst hoM
    simp only [List.drop_left]
    rw [rdropWhile_slash_eq_self hrl]

/-- C4 as amended, at `/mnt/data` with `/file.txt` below it on `hostMnt`. -/
theorem file_below_mount_root_witness :
    grub_make_system_path_relative_to_its_root hostMnt "/mnt/data/file.txt".toList
      = .ret "/file.txt".toList :=
  file_below_mount_root hostMnt devMnt "/mnt/data/file.txt".toList
    "/mnt/data".toList "/file.txt".toList rfl (fun _ => rfl) rfl (fun _ => rfl)
    (by decide) (by decide) (by decide) (by decide) (by decide) (by decide)

/-! ## The device tree scan -/

theorem FoundIn.mono {dev : Nat} {L L' : List (CStr × CStr × Node)} {P : CStr}
    (h : FoundIn dev L P) (hsub : ∀ e ∈ L, e ∈ L') : FoundIn dev L' P := by
  obtain ⟨h1, e, he, h2⟩ := h
  exact ⟨h1, e, hsub e he, h2⟩

theorem stat_eq_lstat_of_not_lnk {ent : Node} {st0 : Stat} (h : lstat ent = some st0)
    (hl : st0.st_mode ≠ .lnk) : stat ent = some st0 := by
  cases ent with
  | file b r => simpa [stat] using h
  | dir c e => simpa [stat] using h
  | lnk t => simp [lstat] at h; subst h; simp at hl
  | unreadable => simp [lstat] at h

mutual
theorem find_core (dev : Nat) (P : CStr) :
    ∀ (dir : Option CStr) (node : Node), grub_find_device dir node dev = some P →
      FoundIn dev node.entries P
  | dir, .dir cwd (some ents), h => by
    rw [grub_find_device] at h
    rw [Node.entries]
    exact loop_core dev P _ cwd ents h
  | dir, .lnk (some t), h => by
    rw [grub_find_device] at h
    rw [Node.entries]
    exact find_core dev P dir t h
  | dir, .dir cwd none, h => by simp [grub_find_device] at h
  | dir, .lnk none, h => by simp [grub_find_device] at h
  | dir, .file _ _, h => by simp [grub_find_device] at h
  | dir, .unreadable, h => by simp [grub_find_device] at h
theorem loop_core (dev : Nat) (P : CStr) :
    ∀ (dir cwd : CStr) (ents : List (CStr × Node)),
      readdir_loop dir cwd dev ents = some P → FoundIn dev (entriesIn cwd ents) P
  | dir, cwd, [], h => by simp [readdir_loop] at h
  | dir, cwd, (d_name, ent) :: rest, h => by
    have hrest : readdir_loop dir cwd dev rest = some P →
        FoundIn dev (entriesIn cwd ((d_name, ent) :: rest)) P := by
      intro h'
      apply (loop_core dev P dir cwd rest h').mono
      intro e he
      rw [entriesIn]
      simp [he]
    rw [readdir_loop] at h
    split at h
    · exact hrest h
    · rename_i hdot
      split at h
      · exact hrest h
      · rename_i st0 hst0
        simp only at h
        split at h
        · exact hrest h
        · rename_i st hst
          split at h
          · rename_i res hres
            have hsub : grub_find_device (some d_name) ent dev = some res := by
              by_cases hd : st.st_mode = .dir
              · simpa [hd] using hres
              · simp [hd] at hres
            cases h
            apply (find_core dev _ (some d_name) ent hsub).mono
            intro e he
            rw [entriesIn]
            simp [he]
          · split at h
            · rename_i hblk
              split at h
              · exact hrest h
              · rename_i hdm
                split at h
                · exact hrest h
                · rename_i hroot
                  cases h
                  refine ⟨hroot, (cwd, d_name, ent), ?_, rfl, by simpa using hdm, hdot, ?_⟩
                  · rw [entriesIn]; simp
                  · have hstat : stat ent = some st := by
                      by_cases hl : st0.st_mode = .lnk
                      · rw [if_pos hl] at hst
                        split at hst
                        · exact hst
                        · cases hst
                      · rw [if_neg hl] at hst
                        cases hst
                        exact stat_eq_lstat_of_not_lnk hst0 hl
                    rw [hstat]
                    obtain ⟨m, r⟩ := st
                    simp at hblk
                    simp [hblk.1, hblk.2]
            · exact hrest h
end

theorem strip_from_cons_ne (b : Bool) (c : Char) (rest : CStr) (hc : c ≠ '/') :
    strip_extra_slashes_from b (c :: rest) = c :: strip_extra_slashes_from false rest := by
  cases rest <;> simp [strip_extra_slashes_from, hc]

theorem strip_from_slash_slash (b : Bool) (rest : CStr) :
    strip_extra_slashes_from b ('/' :: '/' :: rest)
      = strip_extra_slashes_from b ('/' :: rest) := by
  rw [strip_extra_slashes_from.eq_def]
  simp

theorem strip_from_slash_ne (b : Bool) (d : Char) (rest : CStr) (hd : d ≠ '/') :
    strip_extra_slashes_from b ('/' :: d :: rest)
      = '/' :: d :: strip_extra_slashes_from false rest := by
  rw [strip_extra_slashes_from.eq_def]
  simp [hd]

theorem strip_from_no_slash (b : Bool) (s : CStr) (h : '/' ∉ s) :
    strip_extra_slashes_from b s = s := by
  induction s generalizing b with
  | nil => simp [strip_extra_slashes_from]
  | cons c rest ih =>
    simp only [List.mem_cons, not_or] at h
    rw [strip_from_cons_ne b c rest (Ne.symm h.1), ih false h.2]

theorem strip_from_keeps_name (name : CStr) (hne : name ≠ []) (hns : '/' ∉ name) :
    ∀ (cwd : CStr) (b : Bool),
      ∃ pre, strip_extra_slashes_from b (cwd ++ '/' :: name) = pre ++ '/' :: name := by
  obtain ⟨d, rest', rfl⟩ : ∃ d rest', name = d :: rest' := by
    cases name with
    | nil => exact absurd rfl hne
    | cons d r => exact ⟨d, r, rfl⟩
  simp only [List.mem_cons, not_or] at hns
  have hd : d ≠ '/' := Ne.symm hns.1
  intro cwd
  induction cwd with
  | nil =>
    intro b
    refine ⟨[], ?_⟩
    simp only [List.nil_append]
    rw [strip_from_slash_ne b d rest' hd, strip_from_no_slash false rest' hns.2]
  | cons c cs ih =>
    intro b
    by_cases hc : c = '/'
    · subst hc
      cases cs with
      | nil =>
        simp only [List.cons_append, List.nil_append]
        rw [strip_from_slash_slash]
        exact ih b
      | cons x xs =>
        simp only [List.cons_append]
        by_cases hx : x = '/'
        · subst hx
          rw [strip_from_slash_slash]
          exact ih b
        · rw [strip_from_slash_ne b x _ hx]
          obtain ⟨pre, hpre⟩ := ih false
          simp only [List.cons_append] at hpre
          rw [strip_from_cons_ne false x _ hx] at hpre
          exact ⟨'/' :: pre, by rw [hpre]; rfl⟩
    · obtain ⟨pre, hpre⟩ := ih false
      refine ⟨c :: pre, ?_⟩
      simp only [List.cons_append]
      rw [strip_from_cons_ne b c _ hc, hpre]

theorem takeWhile_not_slash_append (a b : CStr) (ha : ∀ y ∈ a, y ≠ '/') :
    List.takeWhile (fun x => decide (x ≠ '/')) (a ++ ('/' :: b)) = a := by
  induction a with
  | nil => simp [List.takeWhile]
  | cons y ys ih =>
    simp only [List.mem_cons, forall_eq_or_imp] at ha
    rw [List.cons_append, List.takeWhile_cons, if_pos (by simpa using ha.1), ih ha.2]

theorem lastComponent_append (pre name : CStr) (hns : '/' ∉ name) :
    lastComponent (pre ++ '/' :: name) = name := by
  unfold lastComponent List.rtakeWhile
  rw [List.reverse_append, List.reverse_cons, List.append_assoc]
  have := takeWhile_not_slash_append name.reverse pre.reverse (by
    intro y hy hcon
    subst hcon
    exact hns (List.mem_reverse.mp hy))
  simp only [List.singleton_append]
  rw [this, List.reverse_reverse]

/-- C5: a path `P` returned by `grub_find_device` is not `/dev/root` and
names an entry of a directory of the scanned tree: `P` is the normalised join
of the working directory and the entry name, `stat` on the entry says block
device with the target device identifier, and the entry name is not of the
form `dm-<digit>...` and does not begin with `.`.  That name is the last
component of `P`, entry names being non-empty and without `/`. -/
theorem find_device_sound (dir : Option CStr) (node : Node) (dev : Nat) (P : CStr)
    (h : grub_find_device dir node dev = some P) :
    P ≠ "/dev/root".toList ∧
    ∃ e ∈ node.entries, P = strip_extra_slashes (e.1 ++ '/' :: e.2.1) ∧
      stat e.2.2 = some ⟨.blk, dev⟩ ∧
      is_dm_shorthand e.2.1 = false ∧ e.2.1.head? ≠ some '.' ∧
      (e.2.1 ≠ [] → '/' ∉ e.2.1 →
        lastComponent P = e.2.1 ∧ is_dm_shorthand (lastComponent P) = false ∧
          (lastComponent P).head? ≠ some '.') := by
  obtain ⟨hroot, e, he, hP, hdm, hdot, hst⟩ := find_core dev P dir node h
  refine ⟨hroot, e, he, hP, hst, hdm, hdot, ?_⟩
  intro hne hns
  obtain ⟨pre, hpre⟩ := strip_from_keeps_name e.2.1 hne hns e.1 true
  have hlast : lastComponent P = e.2.1 := by
    rw [hP, strip_extra_slashes, hpre]
    exact lastComponent_append pre e.2.1 hns
  refine ⟨hlast, ?_, ?_⟩
  · rw [hlast]; exact hdm
  · rw [hlast]; exact hdot

/-- C5 on `devTree`: the scan for device 7 returns the alias under
`/dev/mapper`, not `/dev/root`, `/dev/dm-0` or `/dev/sda1`; the entry it names
is the link `myvg-lv1` of the directory `/dev/mapper`. -/
theorem find_device_sound_witness :
    grub_find_device (some "/dev".toList) devTree 7 = some "/dev/mapper/myvg-lv1".toList ∧
    ("/dev/mapper/myvg-lv1".toList ≠ "/dev/root".toList ∧
    ∃ e ∈ devTree.entries,
      "/dev/mapper/myvg-lv1".toList = strip_extra_slashes (e.1 ++ '/' :: e.2.1) ∧
      stat e.2.2 = some ⟨.blk, 7⟩ ∧
      is_dm_shorthand e.2.1 = false ∧ e.2.1.head? ≠ some '.' ∧
      (e.2.1 ≠ [] → '/' ∉ e.2.1 →
        lastComponent "/dev/mapper/myvg-lv1".toList = e.2.1 ∧
          is_dm_shorthand (lastComponent "/dev/mapper/myvg-lv1".toList) = false ∧
          (lastComponent "/dev/mapper/myvg-lv1".toList).head? ≠ some '.')) :=
  ⟨by decide,
   find_device_sound (some "/dev".toList) devTree 7 "/dev/mapper/myvg-lv1".toList
    (by decide)⟩

/-! ## The pool status parser -/

/-! ### label patterns -/

/-- On the output `statusTank` the members of `tank` are `sda1` and the disk
given by its path; the labels `mirror-0` and `raidz1-0` and the row that is
`OFFLINE` are left out. -/
theorem pool_members_statusTank :
    zpool_status_parse blank4 "tank".toList statusTank
      = ["/dev/sda1".toList, "/dev/disk/by-id/x".toList] := by
  decide

/-- A pool named `raid` is inside the amended statement: its pool row is not
searched for labels, and the list is `/dev/sda1`. -/
theorem pool_members_statusRaid :
    (∀ line ∈ statusRaid, name_fits 4096 line) ∧
    labels_not_cut_short "raid".toList statusRaid ∧
    (∀ line ∈ pool_row "raid".toList statusRaid, pool_row_spaced blank4 line) ∧
    zpool_status_parse_bounded 4096 blank4 "raid".toList statusRaid
      = some ["/dev/sda1".toList] ∧
    select_members sscanf_fields "raid".toList statusRaid = ["/dev/sda1".toList] := by
  decide

/-! ### no devices and failure -/

/-- C7, as stated, fails: on a status text that was read to its end and has
no member row the function returns `NULL`, the value it returns when the pipe
cannot be created, and not an array that holds only the terminator. -/
theorem no_devices_counterexample :
    zpool_status_parse blank4 "tank".toList statusNoMembers = [] ∧
    grub_util_find_root_devices_from_poolname blank4 (some (some statusNoMembers))
        "tank".toList = none ∧
    grub_util_find_root_devices_from_poolname blank4 (some (some statusNoMembers))
        "tank".toList
      = grub_util_find_root_devices_from_poolname blank4 none "tank".toList ∧
    grub_util_find_root_devices_from_poolname blank4 (some (some statusNoMembers))
        "tank".toList ≠ some [] := by
  decide

/-- C7 as amended: the function returns `NULL` when the pipe cannot be
created, when the stream cannot be opened and when the output was read and no
row qualified; a result other than `NULL` is the list of the rows that
qualified and holds at least one device. -/
theorem no_devices_is_null (g : Char → Bool) (poolname : CStr) :
    grub_util_find_root_devices_from_poolname g none poolname = none ∧
    grub_util_find_root_devices_from_poolname g (some none) poolname = none ∧
    (∀ lines, zpool_status_parse g poolname lines = [] →
      grub_util_find_root_devices_from_poolname g (some (some lines)) poolname = none) ∧
    (∀ pipe l, grub_util_find_root_devices_from_poolname g pipe poolname = some l →
      l ≠ [] ∧ ∃ lines, pipe = some (some lines) ∧ l = zpool_status_parse g poolname lines) := by
  refine ⟨rfl, rfl, ?_, ?_⟩
  · intro lines h
    simp [grub_util_find_root_devices_from_poolname, h]
  · intro pipe l h
    match pipe, h with
    | none, h => simp [grub_util_find_root_devices_from_poolname] at h
    | some none, h => simp [grub_util_find_root_devices_from_poolname] at h
    | some (some lines), h =>
      simp only [grub_util_find_root_devices_from_poolname] at h
      split at h
      · cases h
      · rename_i hne
        cases h
        exact ⟨hne, lines, rfl, rfl⟩

/-! ## The root resolution driver -/

/-- C8, the code at the failing input: on `hostDm` the re-resolution of
`/dev/dm-0` through `grub_find_device ("/dev/mapper", 9)` finds nothing, and
`grub_guess_root_devices` returns the backend's array with `NULL` in its
first cell and `/dev/sda1` behind it, which a caller reads as the empty list;
the fallback result, the single entry of the full scan, is not returned.
When instead `stat` fails on `/dev/dm-0` (`hostDmStatFails`) the batch is
discarded and the fallback result is returned. -/
theorem guess_root_devices_keeps_failed_batch :
    grub_find_device (some "/dev/mapper".toList) hostDm.dev_mapper_dir 9 = none ∧
    grub_guess_root_devices hostDm "/boot".toList
      = .ret (some [none, some "/dev/sda1".toList]) ∧
    visible_list [none, some "/dev/sda1".toList] = [] ∧
    guess_fallback hostDm "/boot".toList
      = .ret (some [some "/dev/mapper/myvg-lv1".toList]) ∧
    grub_guess_root_devices hostDm "/boot".toList ≠ guess_fallback hostDm "/boot".toList ∧
    grub_guess_root_devices hostDmStatFails "/boot".toList
      = guess_fallback hostDmStatFails "/boot".toList := by
  decide

/-! ## The volume group listing -/

theorem lvm_vgname_cons_ne (c : Char) (rest : CStr) (hc : c ≠ '-') :
    lvm_vgname (c :: rest) = c :: lvm_vgname rest := by
  rw [lvm_vgname.eq_def]
  simp [hc]

theorem lvm_vgname_dash_dash (rest : CStr) :
    lvm_vgname ('-' :: '-' :: rest) = '-' :: lvm_vgname rest := by
  rw [lvm_vgname.eq_def]
  simp

theorem lvm_vgname_dash_ne (d : Char) (rest : CStr) (hd : d ≠ '-') :
    lvm_vgname ('-' :: d :: rest) = [] := by
  rw [lvm_vgname.eq_def]
  simp [hd]

theorem lvm_vgname_dash_nil : lvm_vgname ['-'] = [] := by
  rw [lvm_vgname.eq_def]
  simp

theorem lvm_vgname_esc (v l : CStr) (hl : l.head? ≠ some '-') :
    lvm_vgname (esc v ++ '-' :: esc l) = v := by
  induction v with
  | nil =>
    simp only [esc, List.nil_append]
    cases l with
    | nil => simpa [esc] using lvm_vgname_dash_nil
    | cons c cs =>
      have hc : c ≠ '-' := by simpa using hl
      simp only [esc, if_neg hc]
      exact lvm_vgname_dash_ne c _ hc
  | cons c cs ih =>
    by_cases hc : c = '-'
    · subst hc
      simp only [esc, if_true, List.cons_append]
      rw [lvm_vgname_dash_dash, ih]
    · simp only [esc, hc, if_false, List.cons_append]
      rw [lvm_vgname_cons_ne c _ hc, ih]

theorem skip_padding_eq (line : CStr) : skip_padding line = after_padding line := by
  unfold after_padding
  match line with
  | [] => simp [skip_padding]
  | [c] => by_cases hc : c = ' ' <;> simp [skip_padding, hc, List.takeWhile]
  | c :: d :: rest =>
    by_cases hc : c = ' '
    · by_cases hd : d = ' '
      · simp [skip_padding, hc, hd, List.takeWhile]
      · simp [skip_padding, hc, hd, List.takeWhile]
    · simp [skip_padding, hc, List.takeWhile]

/-- C9: when no volume-group identifier is available, the group name
derived from the alias `/dev/mapper/` `esc v` `-` `esc l`, for a
logical-volume name `l` that does not begin with `-`, is `v`: it is the last
argument of the command that is run.  For a device path that does not begin
with `/dev/mapper/` no command is run and no callback is made. -/
theorem vgname_unescapes_alias (uuid : CStr → Option CStr)
    (vgs : List CStr → Option (Option (List CStr))) (os_dev : CStr)
    (hno : uuid os_dev = none) :
    (∀ v l : CStr, l.head? ≠ some '-' →
      os_dev = "/dev/mapper/".toList ++ esc v ++ '-' :: esc l →
      lvm_vgname (os_dev.drop "/dev/mapper/".toList.length) = v ∧
      (grub_util_pull_lvm_by_command uuid vgs os_dev).argv
        = some ["vgs".toList, "--options".toList, "pv_name".toList, "--noheadings".toList,
            "--separator".toList, ":".toList, v]) ∧
    (¬ "/dev/mapper/".toList <+: os_dev →
      grub_util_pull_lvm_by_command uuid vgs os_dev = ⟨none, []⟩) := by
  constructor
  · intro v l hl hos
    have hname : lvm_vgname (os_dev.drop LVM_DEV_MAPPER_STRING.length) = v := by
      rw [hos, List.append_assoc, LVM_DEV_MAPPER_STRING, List.drop_left]
      exact lvm_vgname_esc v l hl
    refine ⟨hname, ?_⟩
    have hpre : os_dev.take LVM_DEV_MAPPER_STRING.length = LVM_DEV_MAPPER_STRING := by
      rw [hos, List.append_assoc, LVM_DEV_MAPPER_STRING, List.take_left]
    unfold grub_util_pull_lvm_by_command
    simp only [hno, hpre, ne_eq, not_true_eq_false, and_false, if_false, hname,
      Option.isSome_none, Bool.false_eq_true, Option.toList_some]
    split <;> rfl
  · intro hpre
    have hne : os_dev.take LVM_DEV_MAPPER_STRING.length ≠ LVM_DEV_MAPPER_STRING := by
      intro hcon
      apply hpre
      rw [← List.take_append_drop LVM_DEV_MAPPER_STRING.length os_dev, hcon]
      exact List.prefix_append _ _
    unfold grub_util_pull_lvm_by_command
    simp only [hno, hne, ne_eq, not_false_eq_true, and_self, if_true]

/-- C9 at `/dev/mapper/myvg-lv1`: the group name is `myvg`. -/
theorem vgname_unescapes_alias_witness :
    (grub_util_pull_lvm_by_command (fun _ => none) (fun _ => none)
        "/dev/mapper/myvg-lv1".toList).argv
      = some ["vgs".toList, "--options".toList, "pv_name".toList, "--noheadings".toList,
          "--separator".toList, ":".toList, "myvg".toList] :=
  ((vgname_unescapes_alias (fun _ => none) (fun _ => none) "/dev/mapper/myvg-lv1".toList
    rfl).1 "myvg".toList "lv1".toList (by decide) (by decide)).2


theorem after_padding_getLast (line : CStr) (hnl : line.getLast? = some '\n') :
    (after_padding line).getLast? = some '\n' := by
  unfold after_padding
  rw [List.getLast?_drop, if_neg]
  · exact hnl
  · have hlt : (line.takeWhile (fun c => c = ' ')).length < line.length := by
      by_contra hge
      have hle := (List.takeWhile_prefix (l := line) (fun c => decide (c = ' '))).length_le
      have heq : (line.takeWhile (fun c => c = ' ')).length = line.length := by omega
      have hall : line.takeWhile (fun c => c = ' ') = line := by
        have hpre : line.takeWhile (fun c => decide (c = ' ')) <+: line :=
          List.takeWhile_prefix _
        exact hpre.eq_of_length heq
      have hmem : '\n' ∈ line := List.mem_of_getLast?_eq_some hnl
      rw [← hall] at hmem
      have := List.mem_takeWhile_imp hmem
      simp at this
    omega

theorem split_at_colon {s id : CStr} (hid : ':' ∉ id) :
    (s.take id.length = id ∧ s.getD id.length (Char.ofNat 0) = ':') ↔
      (':' ∈ s ∧ s.takeWhile (fun c => c ≠ ':') = id) := by
  constructor
  · rintro ⟨htake, hget⟩
    have hlt : id.length < s.length := by
      by_contra hge
      rw [List.getD_eq_getElem?_getD, List.getElem?_eq_none (by omega)] at hget
      simp at hget
    rw [List.getD_eq_getElem?_getD, List.getElem?_eq_getElem hlt] at hget
    simp only [Option.getD_some] at hget
    have hs : s = id ++ ':' :: s.drop (id.length + 1) := by
      conv_lhs => rw [← List.take_append_drop id.length s, htake]
      congr 1
      rw [List.drop_eq_getElem_cons hlt, hget]
    refine ⟨by rw [hs]; simp, ?_⟩
    rw [hs, List.takeWhile_append_of_pos (by
      intro a ha
      simp only [ne_eq, decide_not, Bool.not_eq_true', decide_eq_false_iff_not]
      intro hcon; subst hcon; exact hid ha)]
    simp
  · rintro ⟨hmem, htw⟩
    have hs := List.takeWhile_append_dropWhile (fun c => decide (c ≠ ':')) s
    have hne : s.dropWhile (fun c => decide (c ≠ ':')) ≠ [] := by
      intro hnil
      rw [List.dropWhile_eq_nil_iff] at hnil
      have := hnil ':' hmem
      simp at this
    obtain ⟨x, rest, hx⟩ := List.exists_cons_of_ne_nil hne
    have hxc : x = ':' := by
      have := List.head?_dropWhile_not (fun c => decide (c ≠ ':')) s
      rw [hx] at this
      simpa using this
    subst hxc
    rw [htw, hx] at hs
    rw [← hs]
    constructor
    · exact List.take_left _ _
    · rw [List.getD_eq_getElem?_getD, List.getElem?_append_right (le_refl _)]
      simp

theorem lvm_line_eq (vgid : Option CStr) (hid : ∀ id, vgid = some id → ':' ∉ id)
    (line : CStr) (hnl : line.getLast? = some '\n') :
    lvm_line vgid line
      = if lvm_accepts vgid line then some (pv_column vgid line) else none := by
  have hlast := after_padding_getLast line hnl
  have hne : after_padding line ≠ [] := by
    intro h; rw [h] at hlast; simp at hlast
  unfold lvm_line lvm_accepts pv_column
  rw [skip_padding_eq]
  cases vgid with
  | none => simp [hne]
  | some id =>
    have hsplit := split_at_colon (s := after_padding line) (hid id rfl)
    simp only
    by_cases hacc : ':' ∈ after_padding line ∧
        (after_padding line).takeWhile (fun c => c ≠ ':') = id
    · have hcode := hsplit.mpr hacc
      rw [if_neg (by
        rw [not_or, not_not, not_not]; exact hcode)]
      simp only [id_column, hacc.1, hacc.2, decide_True, Bool.and_self, if_true]
      have hlt : id.length < (after_padding line).length := by
        by_contra hge
        have := hcode.2
        rw [List.getD_eq_getElem?_getD, List.getElem?_eq_none (by omega)] at this
        simp at this
      have hget : (after_padding line)[id.length] = ':' := by
        have := hcode.2
        rw [List.getD_eq_getElem?_getD, List.getElem?_eq_getElem hlt] at this
        simpa using this
      have hs : after_padding line = id ++ ':' :: (after_padding line).drop (id.length + 1) := by
        conv_lhs => rw [← List.take_append_drop id.length (after_padding line), hcode.1]
        congr 1
        rw [List.drop_eq_getElem_cons hlt, hget]
      have hdw : (after_padding line).dropWhile (fun c => c ≠ ':')
          = ':' :: (after_padding line).drop (id.length + 1) := by
        conv_lhs => rw [hs]
        rw [List.dropWhile_append_of_pos (by
          intro a ha
          simp only [ne_eq, decide_not, Bool.not_eq_true', decide_eq_false_iff_not]
          intro hcon; subst hcon; exact hid id rfl ha)]
        simp
      rw [hdw]
      simp only [List.drop_succ_cons, List.drop_zero]
      have hrest : (after_padding line).drop (id.length + 1) ≠ [] := by
        intro hnil
        rw [hnil] at hs
        rw [hs] at hlast
        simp at hlast
      rw [if_neg hrest]
    · have hcode : ¬ ((after_padding line).take id.length = id ∧
          (after_padding line).getD id.length (Char.ofNat 0) = ':') := fun h => hacc (hsplit.mp h)
      rw [if_pos (by
        by_contra hcon
        rw [not_or, not_not, not_not] at hcon
        exact hcode hcon)]
      have : (decide (':' ∈ after_padding line) && decide (id_column line = id)) = false := by
        rw [Bool.eq_false_iff]
        intro hcon
        simp only [id_column, Bool.and_eq_true, decide_eq_true_eq] at hcon
        exact hacc hcon
      rw [this]
      simp

theorem lvm_lines_eq (vgid : Option CStr) (hid : ∀ id, vgid = some id → ':' ∉ id) :
    ∀ (lines : List CStr), (∀ line ∈ lines, line.getLast? = some '\n') →
      lvm_lines vgid lines = (lines.filter (lvm_accepts vgid)).map (pv_column vgid) := by
  intro lines
  induction lines with
  | nil => intro _; simp [lvm_lines]
  | cons line rest ih =>
    intro hnl
    have h1 := hnl line (by simp)
    have hpos : 0 < line.length := by
      cases line with
      | nil => simp at h1
      | cons c cs => simp
    rw [lvm_lines, if_pos hpos, lvm_line_eq vgid hid line h1,
      ih (fun l hl => hnl l (by simp [hl]))]
    by_cases hacc : lvm_accepts vgid line = true
    · simp [List.filter_cons, hacc]
    · simp [List.filter_cons, hacc]

/-- C10: for a listing of newline-terminated lines the callback is invoked
once per accepted line, in file order, with the physical-volume path column
of the line: the padding of up to two blanks, the identifier column with its
`:` when an identifier is known, and the newline are removed, nothing else.
With an identifier (which, being one column of the listing, holds no `:`) a
line is accepted exactly when its identifier column equals it; without one
every line is accepted. -/
theorem lvm_callback_per_accepted_line (uuid : CStr → Option CStr)
    (vgs : List CStr → Option (Option (List CStr))) (os_dev : CStr) (lines : List CStr)
    (hrun : uuid os_dev ≠ none ∨ "/dev/mapper/".toList <+: os_dev)
    (hout : ∀ argv, vgs argv = some (some lines))
    (hnl : ∀ line ∈ lines, line.getLast? = some '\n')
    (hid : ∀ id, uuid os_dev = some id → ':' ∉ id) :
    (grub_util_pull_lvm_by_command uuid vgs os_dev).pulled
      = (lines.filter (lvm_accepts (uuid os_dev))).map (pv_column (uuid os_dev)) := by
  have hcond : ¬ (uuid os_dev = none ∧
      os_dev.take LVM_DEV_MAPPER_STRING.length ≠ LVM_DEV_MAPPER_STRING) := by
    rintro ⟨h1, h2⟩
    rcases hrun with h | h
    · exact h h1
    · apply h2
      obtain ⟨t, rfl⟩ := h
      exact List.take_left _ _
  unfold grub_util_pull_lvm_by_command
  simp only [if_neg hcond, hout]
  exact lvm_lines_eq (uuid os_dev) hid lines hnl

/-- C10 on a listing of five lines with the identifier `abc`: the lines
`  abc:/dev/sda1`, ` abc:/dev/sdc 1` and `abc:` are accepted. -/
theorem lvm_callback_per_accepted_line_witness :
    (∀ line ∈ vgsOutput, line.getLast? = some '\n') ∧
    (vgsOutput.filter (lvm_accepts (some "abc".toList))).map (pv_column (some "abc".toList))
      = ["/dev/sda1".toList, "/dev/sdc 1".toList, []] ∧
    (grub_util_pull_lvm_by_command (fun _ => some "abc".toList)
        (fun _ => some (some vgsOutput)) "/dev/mapper/myvg-lv1".toList).pulled
      = (vgsOutput.filter (lvm_accepts (some "abc".toList))).map
          (pv_column (some "abc".toList)) :=
  ⟨by decide, by decide,
   lvm_callback_per_accepted_line (fun _ => some "abc".toList)
    (fun _ => some (some vgsOutput)) "/dev/mapper/myvg-lv1".toList vgsOutput
    (by decide) (fun _ => rfl) (by decide) (by
      intro id hid
      cases hid
      decide)⟩


/-! ## The normalisation of the scanner's result path -/

theorem splitOnP_slash_ne_nil (s : CStr) :
    s.splitOnP (fun c => decide (c = '/')) ≠ [] :=
  List.splitOnP_ne_nil _ s

theorem splitOnP_slash_cons_slash (s : CStr) :
    ('/' :: s).splitOnP (fun c => decide (c = '/'))
      = [] :: s.splitOnP (fun c => decide (c = '/')) := by
  rw [List.splitOnP_cons]
  simp

theorem splitOnP_slash_cons_ne (c : Char) (s : CStr) (hc : c ≠ '/') :
    (c :: s).splitOnP (fun c => decide (c = '/'))
      = (c :: (s.splitOnP (fun c => decide (c = '/'))).headD [])
          :: (s.splitOnP (fun c => decide (c = '/'))).tail := by
  rw [List.splitOnP_cons]
  simp only [hc, decide_False, Bool.false_eq_true, if_false]
  cases h : s.splitOnP (fun c => decide (c = '/')) with
  | nil => exact absurd h (splitOnP_slash_ne_nil s)
  | cons hd tl => rfl

theorem components_cons_slash (s : CStr) : components ('/' :: s) = components s := by
  unfold components
  rw [splitOnP_slash_cons_slash]
  simp

theorem components_cons_ne (c : Char) (s : CStr) (hc : c ≠ '/') :
    components (c :: s)
      = (c :: (s.splitOnP (fun c => decide (c = '/'))).headD [])
          :: (s.splitOnP (fun c => decide (c = '/'))).tail.filter
              (fun t => decide (t ≠ [])) := by
  unfold components
  rw [splitOnP_slash_cons_ne c s hc]
  simp

theorem components_eq_head_tail (s : CStr) :
    components s
      = (if (s.splitOnP (fun c => decide (c = '/'))).headD [] ≠ [] then
          [(s.splitOnP (fun c => decide (c = '/'))).headD []] else [])
        ++ (s.splitOnP (fun c => decide (c = '/'))).tail.filter
              (fun t => decide (t ≠ [])) := by
  unfold components
  cases h : s.splitOnP (fun c => decide (c = '/')) with
  | nil => exact absurd h (splitOnP_slash_ne_nil s)
  | cons hd tl =>
    by_cases hhd : hd = []
    · simp [hhd]
    · simp [hhd, List.filter_cons]

/-- The scan keeps the piece before the first slash and the components. -/
theorem strip_from_components (s : CStr) :
    ∀ b : Bool,
      ((strip_extra_slashes_from b s).splitOnP (fun c => decide (c = '/'))).headD []
          = (s.splitOnP (fun c => decide (c = '/'))).headD [] ∧
        components (strip_extra_slashes_from b s) = components s := by
  induction s with
  | nil => intro b; simp [strip_extra_slashes_from]
  | cons c rest ih =>
    intro b
    by_cases hc : c = '/'
    · subst hc
      cases rest with
      | nil =>
        cases b <;> simp [strip_extra_slashes_from, components, List.splitOnP_cons,
          List.splitOnP_nil]
      | cons d rest' =>
        by_cases hd : d = '/'
        · subst hd
          rw [strip_from_slash_slash]
          obtain ⟨h1, h2⟩ := ih b
          refine ⟨?_, ?_⟩
          · rw [h1, splitOnP_slash_cons_slash, splitOnP_slash_cons_slash]
            rfl
          · rw [h2]; simp only [components_cons_slash]
        · have hform : strip_extra_slashes_from b ('/' :: d :: rest')
              = '/' :: strip_extra_slashes_from false (d :: rest') := by
            rw [strip_from_slash_ne b d rest' hd, strip_from_cons_ne false d rest' hd]
          rw [hform]
          obtain ⟨-, h2⟩ := ih false
          refine ⟨?_, ?_⟩
          · rw [splitOnP_slash_cons_slash, splitOnP_slash_cons_slash]
            rfl
          · rw [components_cons_slash, components_cons_slash, h2]
    · rw [strip_from_cons_ne b c rest hc]
      obtain ⟨h1, h2⟩ := ih false
      have htail : ((strip_extra_slashes_from false rest).splitOnP
            (fun c => decide (c = '/'))).tail.filter (fun t => decide (t ≠ []))
          = (rest.splitOnP (fun c => decide (c = '/'))).tail.filter
              (fun t => decide (t ≠ [])) := by
        rw [components_eq_head_tail (strip_extra_slashes_from false rest),
          components_eq_head_tail rest, h1] at h2
        exact List.append_cancel_left h2
      refine ⟨?_, ?_⟩
      · rw [splitOnP_slash_cons_ne c _ hc, splitOnP_slash_cons_ne c _ hc, h1]
        rfl
      · rw [components_cons_ne c _ hc, components_cons_ne c _ hc, h1, htail]

theorem double_slash_infix_cons (c : Char) (t : CStr) :
    ['/', '/'] <:+: c :: t ↔ (c = '/' ∧ t.head? = some '/') ∨ ['/', '/'] <:+: t := by
  rw [List.infix_cons_iff]
  constructor
  · rintro (h | h)
    · left
      cases t with
      | nil =>
        have := h.length_le
        simp at this
      | cons d t' =>
        rw [List.cons_prefix_cons, List.cons_prefix_cons] at h
        exact ⟨h.1.symm, by simp [h.2.1.symm]⟩
    · exact Or.inr h
  · rintro (⟨h1, h2⟩ | h)
    · left
      cases t with
      | nil => simp at h2
      | cons d t' =>
        simp only [List.head?_cons, Option.some.injEq] at h2
        subst h1 h2
        rw [List.cons_prefix_cons, List.cons_prefix_cons]
        exact ⟨rfl, rfl, List.nil_prefix⟩
    · exact Or.inr h

/-- The scan leaves no two slashes side by side. -/
theorem strip_from_no_double_slash (s : CStr) :
    ∀ b : Bool, ¬ ['/', '/'] <:+: strip_extra_slashes_from b s := by
  induction s with
  | nil => intro b; simp [strip_extra_slashes_from]
  | cons c rest ih =>
    intro b
    by_cases hc : c = '/'
    · subst hc
      cases rest with
      | nil =>
        intro hcon
        have hlen := hcon.length_le
        cases b <;> simp [strip_extra_slashes_from] at hlen
      | cons d rest' =>
        by_cases hd : d = '/'
        · subst hd
          rw [strip_from_slash_slash]
          exact ih b
        · have hform : strip_extra_slashes_from b ('/' :: d :: rest')
              = '/' :: strip_extra_slashes_from false (d :: rest') := by
            rw [strip_from_slash_ne b d rest' hd, strip_from_cons_ne false d rest' hd]
          rw [hform, double_slash_infix_cons]
          rintro (⟨-, h⟩ | h)
          · rw [strip_from_cons_ne false d rest' hd] at h
            simp only [List.head?_cons, Option.some.injEq] at h
            exact hd h
          · exact ih false h
    · rw [strip_from_cons_ne b c rest hc, double_slash_infix_cons]
      rintro (⟨h, -⟩ | h)
      · exact hc h
      · exact ih false h

/-- A slash is left at the end only when the whole result is the slash
that begins `dir`. -/
theorem strip_from_getLast (s : CStr) :
    ∀ b : Bool, (strip_extra_slashes_from b s).getLast? = some '/' →
      b = true ∧ strip_extra_slashes_from b s = ['/'] := by
  induction s with
  | nil => intro b h; simp [strip_extra_slashes_from] at h
  | cons c rest ih =>
    intro b h
    by_cases hc : c = '/'
    · subst hc
      cases rest with
      | nil =>
        cases b
        · simp [strip_extra_slashes_from] at h
        · simp [strip_extra_slashes_from]
      | cons d rest' =>
        by_cases hd : d = '/'
        · subst hd
          rw [strip_from_slash_slash] at h ⊢
          exact ih b h
        · exfalso
          rw [strip_from_slash_ne b d rest' hd, List.getLast?_cons_cons] at h
          have := ih false (by rw [strip_from_cons_ne false d rest' hd]; exact h)
          simp at this
    · exfalso
      rw [strip_from_cons_ne b c rest hc, List.getLast?_cons] at h
      cases hl : (strip_extra_slashes_from false rest).getLast? with
      | none =>
        rw [hl] at h
        simp only [Option.getD_none, Option.some.injEq] at h
        exact hc h
      | some x =>
        rw [hl] at h
        simp only [Option.getD_some, Option.some.injEq] at h
        subst h
        have := ih false hl
        simp at this

/-- A string made of slashes only is reduced to one slash. -/
theorem strip_slashes_only (s : CStr) (h : ∀ c ∈ s, c = '/') :
    strip_extra_slashes_from true ('/' :: s) = ['/'] := by
  induction s with
  | nil => simp [strip_extra_slashes_from]
  | cons c rest ih =>
    have hc : c = '/' := h c (by simp)
    subst hc
    rw [strip_from_slash_slash]
    exact ih (fun c hc => h c (by simp [hc]))

theorem components_eq_nil {s : CStr} (h : components s = []) : ∀ c ∈ s, c = '/' := by
  induction s with
  | nil => simp
  | cons c rest ih =>
    by_cases hc : c = '/'
    · subst hc
      rw [components_cons_slash] at h
      intro x hx
      rcases List.mem_cons.mp hx with hx | hx
      · exact hx
      · exact ih h x hx
    · rw [components_cons_ne c rest hc] at h
      cases h

theorem strip_from_head_slash (s : CStr) :
    (strip_extra_slashes_from true ('/' :: s)).head? = some '/' := by
  induction s with
  | nil => simp [strip_extra_slashes_from]
  | cons d rest ih =>
    by_cases hd : d = '/'
    · subst hd
      rw [strip_from_slash_slash]
      exact ih
    · rw [strip_from_slash_ne true d rest hd]
      rfl

/-- C12, as stated, fails: `strip_extra_slashes` leaves the strings `/` and
`//` as `/`, which ends with the separator; the slash that begins `dir` is
never cut off (`if (p > dir)`). -/
theorem strip_extra_slashes_counterexample :
    strip_extra_slashes ['/'] = ['/'] ∧
    (strip_extra_slashes ['/']).getLast? = some '/' ∧
    strip_extra_slashes ['/', '/'] = ['/'] ∧
    (strip_extra_slashes ['/', '/']).getLast? = some '/' := by
  decide

/-- C12 as amended: for every string `s` the result of `strip_extra_slashes`
has no two consecutive `/`; it has no trailing `/` unless it is the single
character `/`, which it is exactly when `s` is not empty and made of `/`
only, so never for a string with another character such as the scanner's
result path; the non-separator components of the result are those of `s`, in
order, and the result begins with `/` exactly when `s` does. -/
theorem strip_extra_slashes_normalises (s : CStr) :
    ¬ ['/', '/'] <:+: strip_extra_slashes s ∧
    (strip_extra_slashes s = ['/'] ∨ (strip_extra_slashes s).getLast? ≠ some '/') ∧
    (strip_extra_slashes s = ['/'] ↔ (s ≠ [] ∧ ∀ c ∈ s, c = '/')) ∧
    ((∃ c ∈ s, c ≠ '/') → (strip_extra_slashes s).getLast? ≠ some '/') ∧
    components (strip_extra_slashes s) = components s ∧
    ((strip_extra_slashes s).head? = some '/' ↔ s.head? = some '/') := by
  unfold strip_extra_slashes
  have hcomp := (strip_from_components s true).2
  have hone : strip_extra_slashes_from true s = ['/'] → ∀ c ∈ s, c = '/' := by
    intro h
    rw [h] at hcomp
    have hnil : components s = [] := by
      rw [← hcomp]; decide
    exact components_eq_nil hnil
  refine ⟨strip_from_no_double_slash s true, ?last, ?one, ?other, hcomp, ?lead⟩
  case last =>
    by_cases h : (strip_extra_slashes_from true s).getLast? = some '/'
    · exact Or.inl (strip_from_getLast s true h).2
    · exact Or.inr h
  case one =>
    constructor
    · intro h
      refine ⟨?_, hone h⟩
      intro hs
      subst hs
      simp [strip_extra_slashes_from] at h
    · rintro ⟨hne, hall⟩
      cases s with
      | nil => exact absurd rfl hne
      | cons c rest =>
        have hc : c = '/' := hall c (by simp)
        subst hc
        exact strip_slashes_only rest (fun c hc => hall c (by simp [hc]))
  case other =>
    rintro ⟨c, hcs, hc⟩ hlast
    exact hc (hone (strip_from_getLast s true hlast).2 c hcs)
  case lead =>
    cases s with
    | nil => simp [strip_extra_slashes_from]
    | cons c rest =>
      by_cases hc : c = '/'
      · subst hc
        simp only [List.head?_cons, iff_true]
        exact strip_from_head_slash rest
      · rw [strip_from_cons_ne true c rest hc]
        simp

/-! ## The offset on a pooled filesystem -/

theorem strchr_drop (s : CStr) (c : Char) :
    match strchr s c with
    | some i => s.drop (i + 1) = (s.dropWhile (fun x => decide (x ≠ c))).drop 1
    | none => (s.dropWhile (fun x => decide (x ≠ c))).drop 1 = [] := by
  induction s with
  | nil => simp [strchr]
  | cons x xs ih =>
    unfold strchr
    by_cases hx : x = c
    · simp [hx]
    · rw [if_neg hx]
      cases hs : strchr xs c with
      | none =>
        rw [hs] at ih
        simpa [List.dropWhile_cons, hx] using ih
      | some i =>
        rw [hs] at ih
        simpa [List.dropWhile_cons, hx] using ih

/-- The second result of `grub_find_zpool_from_dir` is the dataset name. -/
theorem find_zpool_poolfs (zfs_mntfrom : CStr → Option CStr) (dir src : CStr)
    (hz : zfs_mntfrom dir = some src) :
    (grub_find_zpool_from_dir zfs_mntfrom dir).2 = some (dataset_name src) := by
  have h := strchr_drop src '/'
  unfold grub_find_zpool_from_dir dataset_name
  cases hs : strchr src '/' with
  | none =>
    rw [hs] at h
    simp only [hz, hs]
    rw [h]
  | some i =>
    rw [hs] at h
    simp only [hz, hs]
    rw [h]

theorem parsedir_pool (d buf3 : CStr) :
    parsedir (some d) buf3 = pool_marker d ++ parsedir none buf3 := by
  simp [parsedir, pool_marker]

/-- The offset of a filesystem root on a host without pool and bind
string is empty. -/
theorem plain_offset_nil (h : Host) (dev : CStr → Nat) (path p : CStr)
    (hc : h.canonicalize_file_name path = some p)
    (hstat : ∀ q, h.stat q = some (dev q))
    (hpool : h.zfs_mntfrom p = none)
    (hbind : ∀ q, usable_bind (h.mountinfo_bind q) = none)
    (hhead : p.head? = some '/')
    (hroot : p = ['/'] ∨ dev (dirname p) ≠ dev p) :
    grub_make_system_path_relative_to_its_root h path = .ret [] := by
  obtain ⟨e, hpost, hres⟩ := relative_plain h dev path p hc hstat hpool hbind hhead
  rw [hres]
  cases e with
  | mountPoint => rfl
  | broke o =>
    obtain ⟨hop, -, -, hd⟩ := hpost
    rw [List.take_length] at hd
    rcases hroot with h1 | h1
    · subst h1
      have : o = 0 := by simpa using hop
      subst this
      simp [List.rdropWhile_singleton]
    · exact absurd (hd rfl) h1

/-- C11: on a pooled filesystem whose mount source is `src`, the function
returns `/`, the dataset name, `/@` and then the offset it returns on the same
host with no pool reported (and ends the process when that one does); so a
returned offset begins with `/<dataset>/@`, and at the root of the filesystem
(the path is `/` or its parent is on another device; every `stat` succeeds, no
usable bind string) it is exactly `/<dataset>/@`. -/
theorem pooled_offset_has_dataset_marker (h : Host) (path p src : CStr)
    (hc : h.canonicalize_file_name path = some p)
    (hz : h.zfs_mntfrom p = some src) :
    grub_make_system_path_relative_to_its_root h path
      = (grub_make_system_path_relative_to_its_root (non_pooled h) path).map
          (fun r => pool_marker (dataset_name src) ++ r) ∧
    (∀ r, grub_make_system_path_relative_to_its_root h path = .ret r →
      pool_marker (dataset_name src) <+: r) ∧
    (∀ dev : CStr → Nat, (∀ q, h.stat q = some (dev q)) →
      (∀ q, usable_bind (h.mountinfo_bind q) = none) → p.head? = some '/' →
      (p = ['/'] ∨ dev (dirname p) ≠ dev p) →
      grub_make_system_path_relative_to_its_root h path
        = .ret (pool_marker (dataset_name src))) := by
  have hfs := find_zpool_poolfs h.zfs_mntfrom p src hz
  have hfs' : (grub_find_zpool_from_dir (non_pooled h).zfs_mntfrom p).2 = none := by
    simp [grub_find_zpool_from_dir, non_pooled]
  have hc' : (non_pooled h).canonicalize_file_name path = some p := hc
  have hmain : grub_make_system_path_relative_to_its_root h path
      = (grub_make_system_path_relative_to_its_root (non_pooled h) path).map
          (fun r => pool_marker (dataset_name src) ++ r) := by
    have hstat' : (non_pooled h).stat = h.stat := rfl
    have hbind' : (non_pooled h).mountinfo_bind = h.mountinfo_bind := rfl
    cases hs : h.stat p with
    | none =>
      simp [grub_make_system_path_relative_to_its_root, hc, hc', hstat', hs, Outcome.map]
    | some num =>
      cases hw : walkLoop h.stat num (p.length + 1) p 0 with
      | fatal =>
        simp [grub_make_system_path_relative_to_its_root, hc, hc', hstat', hs, hw,
          Outcome.map]
      | nofuel =>
        simp [grub_make_system_path_relative_to_its_root, hc, hc', hstat', hs, hw,
          Outcome.map]
      | ret e =>
        cases e with
        | mountPoint =>
          cases hb : usable_bind (h.mountinfo_bind p) with
          | some bind =>
            simp only [grub_make_system_path_relative_to_its_root, hc, hc', hstat', hbind',
              hs, hw, hb, hfs, hfs', Outcome.map, parsedir_pool]
          | none =>
            simp only [grub_make_system_path_relative_to_its_root, hc, hc', hstat', hbind',
              hs, hw, hb, hfs, hfs', Outcome.map, pool_marker, List.append_nil]
        | broke o =>
          simp only [grub_make_system_path_relative_to_its_root, hc, hc', hstat', hbind',
            hs, hw, hfs, hfs', Outcome.map, parsedir_pool]
  refine ⟨hmain, ?_, ?_⟩
  · intro r hr
    rw [hmain] at hr
    cases hn : grub_make_system_path_relative_to_its_root (non_pooled h) path with
    | ret r0 =>
      rw [hn] at hr
      simp only [Outcome.map, Outcome.ret.injEq] at hr
      rw [← hr]
      exact List.prefix_append _ _
    | fatal => rw [hn] at hr; simp [Outcome.map] at hr
    | nofuel => rw [hn] at hr; simp [Outcome.map] at hr
  · intro dev hstat hbind hhead hroot
    rw [hmain, plain_offset_nil (non_pooled h) dev path p hc' hstat rfl hbind hhead hroot]
    simp [Outcome.map]

/-- C11 on `hostPool`: the dataset `data/home` of the pool `tank` is mounted
at `/tank/data`; below it the offset is `/data/home/@/sub/file`, at the mount
point it is `/data/home/@`. -/
theorem pooled_offset_has_dataset_marker_witness :
    dataset_name "tank/data/home".toList = "data/home".toList ∧
    grub_make_system_path_relative_to_its_root hostPool "/tank/data/sub/file".toList
      = .ret "/data/home/@/sub/file".toList ∧
    grub_make_system_path_relative_to_its_root hostPool "/tank/data".toList
      = .ret "/data/home/@".toList ∧
    (grub_make_system_path_relative_to_its_root hostPool "/tank/data/sub/file".toList
      = (grub_make_system_path_relative_to_its_root (non_pooled hostPool)
            "/tank/data/sub/file".toList).map
          (fun r => pool_marker (dataset_name "tank/data/home".toList) ++ r)) :=
  ⟨by decide, by decide, by decide,
   (pooled_offset_has_dataset_marker hostPool "/tank/data/sub/file".toList
    "/tank/data/sub/file".toList "tank/data/home".toList rfl (by decide)).1⟩

end Getroot
